import Mathlib

set_option maxHeartbeats 1000000

/-!
Shallow embedding of the implicit-graph search kernel in `src/src/utils/graph.rs`:
the DFS engine (`try_dfs_full`, `try_dfs`, `dfs`), the BFS engine (`try_bfs_full`,
`try_bfs`, `bfs`), and the Dijkstra engine (`StateWithWeight`, `dijkstra_full`,
`dijkstra_starts_iter`, `dijkstra`).

Modelling conventions:
* Rust's `while let` loops become fuel-indexed structural recursion; `none` means
  the fuel ran out, `some r` is the value the Rust function returns.
* `HashSet<S>` is modelled as a `List S` used only through membership and
  insertion of fresh elements, exactly as the source uses it.
* `Vec<(A, S)>` used as a stack is modelled as a `List (A × S)` whose head is the
  Vec's back, so `Vec::pop` is taking the head and `Vec::push` is consing.
* `VecDeque<(A, S)>` is a `List (A × S)` whose head is the front, so `pop_front`
  is taking the head and `push_back` appends at the end.
* `BinaryHeap<Reverse<StateWithWeight<A, S, W>>>` is a `List (StateWithWeight A S W)`
  together with `heap_pop_min`, which removes an entry of minimal `weight`
  (the `Ord` instance of `StateWithWeight` compares weights only).  Which entry is
  removed among equal-weight ones is implementation defined in Rust's binary heap;
  the model deterministically removes the earliest-pushed minimal entry.
* `ControlFlow` is the two-constructor type `CFlow` below.
-/

inductive CFlow (B : Type u) (C : Type v) : Type (max u v) where
  | brk : B → CFlow B C
  | cont : C → CFlow B C
deriving DecidableEq

/-- `iter.into_iter().for_each(|item| work_stack.push(item))`: push every produced
item, in production order, onto the stack (list head = top of stack). -/
def pushAll {A S : Type} (work_stack : List (A × S)) (items : List (A × S)) :
    List (A × S) :=
  items.foldl (fun st item => item :: st) work_stack

/-- `try_dfs_full` (graph.rs lines 107-134), fueled.  Pops the head of the work
stack; already-visited states are discarded; otherwise `compute_neighbor_fn`
either breaks (returning the break value, the popped state, and the remaining
stack and visited set) or yields new entries that are pushed, after which the
popped state is inserted into the visited set. -/
def try_dfs_full {A S R : Type} [DecidableEq S]
    (compute_neighbor_fn : A → S → CFlow R (List (A × S))) :
    Nat → List (A × S) → List S →
      Option (CFlow (R × S × List (A × S) × List S) (List S))
  | 0, _, _ => none
  | _ + 1, [], visited => some (.cont visited)
  | n + 1, (acc, current_state) :: work_stack, visited =>
    if current_state ∈ visited then
      try_dfs_full compute_neighbor_fn n work_stack visited
    else
      match compute_neighbor_fn acc current_state with
      | .cont iter =>
          try_dfs_full compute_neighbor_fn n (pushAll work_stack iter)
            (current_state :: visited)
      | .brk b => some (.brk (b, current_state, work_stack, visited))

/-- `try_dfs` (graph.rs lines 94-105). -/
def try_dfs {A S R : Type} [DecidableEq S] (fuel : Nat) (start : S) (acc_init : A)
    (compute_neighbor_fn : A → S → CFlow R (List (A × S))) :
    Option (Option (R × S)) :=
  (try_dfs_full compute_neighbor_fn fuel [(acc_init, start)] []).map fun
    | .cont _ => none
    | .brk (a, s, _, _) => some (a, s)

/-- The closure built by `dfs`/`bfs` (graph.rs lines 56-64 and 151-159) out of the
caller-supplied neighbor, termination and accumulator functions: first compute the
new accumulator, then test the termination predicate (breaking with the
accumulator), else emit one `(new_acc, next_state)` entry per neighbor. -/
def search_compute {A S : Type} (neighbor_fn : S → List S)
    (end_state_fn : A → S → Bool) (acc_fn : A → S → A) :
    A → S → CFlow A (List (A × S)) := fun acc current_state =>
  let acc := acc_fn acc current_state
  if end_state_fn acc current_state then .brk acc
  else .cont ((neighbor_fn current_state).map fun next_state => (acc, next_state))

/-- `dfs` (graph.rs lines 41-65). -/
def dfs {A S : Type} [DecidableEq S] (fuel : Nat) (start : S)
    (neighbor_fn : S → List S) (end_state_fn : A → S → Bool) (acc_init : A)
    (acc_fn : A → S → A) : Option (Option (A × S)) :=
  try_dfs fuel start acc_init (search_compute neighbor_fn end_state_fn acc_fn)

/-- `try_bfs_full` (graph.rs lines 189-216), fueled.  Same loop body as
`try_dfs_full` but the frontier is a FIFO queue: pop from the front, push new
entries at the back. -/
def try_bfs_full {A S R : Type} [DecidableEq S]
    (compute_neighbor_fn : A → S → CFlow R (List (A × S))) :
    Nat → List (A × S) → List S →
      Option (CFlow (R × S × List (A × S) × List S) (List S))
  | 0, _, _ => none
  | _ + 1, [], visited => some (.cont visited)
  | n + 1, (acc, current_state) :: work_queue, visited =>
    if current_state ∈ visited then
      try_bfs_full compute_neighbor_fn n work_queue visited
    else
      match compute_neighbor_fn acc current_state with
      | .cont iter =>
          try_bfs_full compute_neighbor_fn n (work_queue ++ iter)
            (current_state :: visited)
      | .brk b => some (.brk (b, current_state, work_queue, visited))

/-- `try_bfs` (graph.rs lines 218-230). -/
def try_bfs {A S R : Type} [DecidableEq S] (fuel : Nat) (start : S) (acc_init : A)
    (compute_neighbor_fn : A → S → CFlow R (List (A × S))) :
    Option (Option (R × S)) :=
  (try_bfs_full compute_neighbor_fn fuel [(acc_init, start)] []).map fun
    | .cont _ => none
    | .brk (a, s, _, _) => some (a, s)

/-- `bfs` (graph.rs lines 136-160). -/
def bfs {A S : Type} [DecidableEq S] (fuel : Nat) (start : S)
    (neighbor_fn : S → List S) (end_state_fn : A → S → Bool) (acc_init : A)
    (acc_fn : A → S → A) : Option (Option (A × S)) :=
  try_bfs fuel start acc_init (search_compute neighbor_fn end_state_fn acc_fn)

/-- `StateWithWeight` (graph.rs lines 8-13). -/
structure StateWithWeight (A S W : Type) where
  accumulator : A
  state : S
  weight : W
deriving DecidableEq

/-- The `From<StateWithWeight<A, S, W>> for (A, S, W)` conversion
(graph.rs lines 15-19). -/
def StateWithWeight.into {A S W : Type} (value : StateWithWeight A S W) :
    A × S × W :=
  (value.accumulator, value.state, value.weight)

/-- The handwritten `PartialEq` impl (graph.rs lines 23-27):
`self.weight.eq(&other.weight)`. -/
def StateWithWeight.eqModel {A S W : Type} [DecidableEq W]
    (self other : StateWithWeight A S W) : Bool :=
  self.weight = other.weight

/-- The handwritten `Ord` impl (graph.rs lines 35-39):
`self.weight.cmp(&other.weight)`. -/
def StateWithWeight.cmpModel {A S W : Type} [LinearOrder W]
    (self other : StateWithWeight A S W) : Ordering :=
  compare self.weight other.weight

/-- Popping `Reverse<StateWithWeight>` entries from the `BinaryHeap` removes an
entry of minimal `weight` (ties implementation defined; the model removes the
earliest-pushed minimal entry) and returns it with the remaining heap. -/
def heap_pop_min {A S W : Type} [LinearOrder W] :
    List (StateWithWeight A S W) →
      Option (StateWithWeight A S W × List (StateWithWeight A S W))
  | [] => none
  | e :: es =>
    match heap_pop_min es with
    | none => some (e, [])
    | some (m, rest) =>
      if e.weight ≤ m.weight then some (e, es) else some (m, e :: rest)

/-- `dijkstra_full` (graph.rs lines 289-327), fueled.  The Rust function returns
its `Option<(A, S, W)>` and leaves the residual heap and visited set in the
caller's `&mut` arguments; the model returns all three. -/
def dijkstra_full {A S W : Type} [DecidableEq S] [LinearOrder W]
    (neighbor_fn : S → W → List (S × W)) (end_state_fn : A → S → W → Bool)
    (acc_fn : A → S → W → A) :
    Nat → List (StateWithWeight A S W) → List S →
      Option (Option (A × S × W) × List (StateWithWeight A S W) × List S)
  | 0, _, _ => none
  | n + 1, work_heap, visited =>
    match heap_pop_min work_heap with
    | none => some (none, [], visited)
    | some (state_with_weight, rest) =>
      match state_with_weight.into with
      | (acc, current_state, current_weight) =>
        if current_state ∈ visited then
          dijkstra_full neighbor_fn end_state_fn acc_fn n rest visited
        else
          let acc := acc_fn acc current_state current_weight
          if end_state_fn acc current_state current_weight then
            some (some (acc, current_state, current_weight), rest, visited)
          else
            dijkstra_full neighbor_fn end_state_fn acc_fn n
              (rest ++ (neighbor_fn current_state current_weight).map
                fun p => ⟨acc, p.1, p.2⟩)
              (current_state :: visited)

/-- `dijkstra_starts_iter` (graph.rs lines 259-287): seed one heap entry per
start, each carrying its own copy of `acc_init`, then run `dijkstra_full` on the
heap and an empty visited set. -/
def dijkstra_starts_iter {A S W : Type} [DecidableEq S] [LinearOrder W]
    (fuel : Nat) (starts : List (S × W)) (neighbor_fn : S → W → List (S × W))
    (end_state_fn : A → S → W → Bool) (acc_init : A) (acc_fn : A → S → W → A) :
    Option (Option (A × S × W)) :=
  (dijkstra_full neighbor_fn end_state_fn acc_fn fuel
      (starts.map fun p => ⟨acc_init, p.1, p.2⟩) []).map Prod.fst

/-- `dijkstra` (graph.rs lines 232-257): single-start wrapper. -/
def dijkstra {A S W : Type} [DecidableEq S] [LinearOrder W] (fuel : Nat)
    (start : S) (start_weight : W) (neighbor_fn : S → W → List (S × W))
    (end_state_fn : A → S → W → Bool) (acc_init : A) (acc_fn : A → S → W → A) :
    Option (Option (A × S × W)) :=
  dijkstra_starts_iter fuel [(start, start_weight)] neighbor_fn end_state_fn
    acc_init acc_fn

/-!
Instrumented (traced) variants of the three engines.  They follow the exact same
recursion as the plain models but additionally record, in execution order,
* every popped frontier entry together with the result of its visited-set check
  (`true` = the state was already visited, so the entry was discarded), and
* every invocation of the caller-supplied computation (`compute_neighbor_fn` for
  DFS/BFS; the `acc_fn`/`end_state_fn`/`neighbor_fn` bundle for Dijkstra).
The first projection of a traced run is the plain run (proved below).
-/

/-- Traced `try_dfs_full`: result, popped entries with visited flag, and the
entries at which `compute_neighbor_fn` was invoked. -/
def try_dfs_full_tr {A S R : Type} [DecidableEq S]
    (compute_neighbor_fn : A → S → CFlow R (List (A × S))) :
    Nat → List (A × S) → List S →
      Option (CFlow (R × S × List (A × S) × List S) (List S)) ×
        List (A × S × Bool) × List (A × S)
  | 0, _, _ => (none, [], [])
  | _ + 1, [], visited => (some (.cont visited), [], [])
  | n + 1, (acc, current_state) :: work_stack, visited =>
    if current_state ∈ visited then
      let r := try_dfs_full_tr compute_neighbor_fn n work_stack visited
      (r.1, (acc, current_state, true) :: r.2.1, r.2.2)
    else
      match compute_neighbor_fn acc current_state with
      | .cont iter =>
          let r := try_dfs_full_tr compute_neighbor_fn n (pushAll work_stack iter)
            (current_state :: visited)
          (r.1, (acc, current_state, false) :: r.2.1, (acc, current_state) :: r.2.2)
      | .brk b =>
          (some (.brk (b, current_state, work_stack, visited)),
            [(acc, current_state, false)], [(acc, current_state)])

/-- Traced `try_bfs_full`. -/
def try_bfs_full_tr {A S R : Type} [DecidableEq S]
    (compute_neighbor_fn : A → S → CFlow R (List (A × S))) :
    Nat → List (A × S) → List S →
      Option (CFlow (R × S × List (A × S) × List S) (List S)) ×
        List (A × S × Bool) × List (A × S)
  | 0, _, _ => (none, [], [])
  | _ + 1, [], visited => (some (.cont visited), [], [])
  | n + 1, (acc, current_state) :: work_queue, visited =>
    if current_state ∈ visited then
      let r := try_bfs_full_tr compute_neighbor_fn n work_queue visited
      (r.1, (acc, current_state, true) :: r.2.1, r.2.2)
    else
      match compute_neighbor_fn acc current_state with
      | .cont iter =>
          let r := try_bfs_full_tr compute_neighbor_fn n (work_queue ++ iter)
            (current_state :: visited)
          (r.1, (acc, current_state, false) :: r.2.1, (acc, current_state) :: r.2.2)
      | .brk b =>
          (some (.brk (b, current_state, work_queue, visited)),
            [(acc, current_state, false)], [(acc, current_state)])

/-- Traced `dijkstra_full`.  The second component records each invocation of the
caller-supplied functions: at such an entry `acc_fn` and `end_state_fn` run, and
`neighbor_fn` runs as well unless `end_state_fn` fired there. -/
def dijkstra_full_tr {A S W : Type} [DecidableEq S] [LinearOrder W]
    (neighbor_fn : S → W → List (S × W)) (end_state_fn : A → S → W → Bool)
    (acc_fn : A → S → W → A) :
    Nat → List (StateWithWeight A S W) → List S →
      Option (Option (A × S × W) × List (StateWithWeight A S W) × List S) ×
        List (A × S × W × Bool) × List (A × S × W)
  | 0, _, _ => (none, [], [])
  | n + 1, work_heap, visited =>
    match heap_pop_min work_heap with
    | none => (some (none, [], visited), [], [])
    | some (state_with_weight, rest) =>
      match state_with_weight.into with
      | (acc, current_state, current_weight) =>
        if current_state ∈ visited then
          let r := dijkstra_full_tr neighbor_fn end_state_fn acc_fn n rest visited
          (r.1, (acc, current_state, current_weight, true) :: r.2.1, r.2.2)
        else
          let acc2 := acc_fn acc current_state current_weight
          if end_state_fn acc2 current_state current_weight then
            (some (some (acc2, current_state, current_weight), rest, visited),
              [(acc, current_state, current_weight, false)],
              [(acc, current_state, current_weight)])
          else
            let r := dijkstra_full_tr neighbor_fn end_state_fn acc_fn n
              (rest ++ (neighbor_fn current_state current_weight).map
                fun p => ⟨acc2, p.1, p.2⟩)
              (current_state :: visited)
            (r.1, (acc, current_state, current_weight, false) :: r.2.1,
              (acc, current_state, current_weight) :: r.2.2)

/-!
Concrete graphs used by the scenario parts of the spec (Scenarios A-D and the
counterexample instances), and the reachability predicates and instrumented
runs used by the optimality proofs.
-/

/-- Scenario C: the 2-cycle 0 → 1 → 0. -/
def cyc2_neighbor : Nat → List Nat := fun s => if s = 0 then [1] else [0]

/-- Step-count termination predicate of Scenario C: step count at least one and
state equal to the start 0. -/
def step_count_end : Int → Nat → Bool := fun a s => decide (1 ≤ a) && decide (s = 0)

/-- The step/edge-count accumulator: increment on every arrival.  Seeding it
with -1 makes the start expand at count 0, so the count equals the number of
edges traversed. -/
def step_count_acc : Int → Nat → Int := fun a _ => a + 1

/-- Scenario A: the line graph 0 → 1 → 2 → 3 on `Nat`. -/
def line_neighbor : Nat → List Nat := fun s => if s < 3 then [s + 1] else []

/-- Scenario A termination: state equals 3 (the end of the line). -/
def line_p : Nat → Bool := fun s => decide (s = 3)

/-- Scenario A on the finite state type `Fin 4`. -/
def line4_neighbor : Fin 4 → List (Fin 4) := fun s => if s.val < 3 then [s + 1] else []

/-- Scenario A termination on `Fin 4`. -/
def line4_p : Fin 4 → Bool := fun s => decide (s = (3 : Fin 4))

/-- Scenario B: the triangle with edge increments 0-1 of weight 1, 1-2 of
weight 1, 0-2 of weight 5 (undirected, as adjacency increments), on `Nat`. -/
def tri_adj : Nat → List (Nat × Nat) := fun s =>
  if s = 0 then [(1, 1), (2, 5)]
  else if s = 1 then [(0, 1), (2, 1)]
  else if s = 2 then [(0, 5), (1, 1)] else []

/-- Scenario B on the finite state type `Fin 3`. -/
def tri3_adj : Fin 3 → List (Fin 3 × Nat) := fun s =>
  if s = 0 then [(1, 1), (2, 5)]
  else if s = 1 then [(0, 1), (2, 1)]
  else [(0, 5), (1, 1)]

/-- Scenario B neighbor function in the kernel's cumulative-weight form. -/
def tri_neighbor : Nat → Nat → List (Nat × Nat) := fun s w =>
  (tri_adj s).map fun e => (e.1, w + e.2)

/-- Scenario B termination: state equals 2 (vertex c). -/
def tri_end : Nat → Nat → Nat → Bool := fun _ s _ => decide (s = 2)

/-- A graph in which state 0 lists the same successor twice (used to exhibit a
popped entry whose state is already visited). -/
def dup_neighbor : Nat → List Nat := fun s => if s = 0 then [1, 1] else []

/-- A termination predicate that never fires. -/
def never_end {A S : Type} : A → S → Bool := fun _ _ => false

/-- Scenario D: a start state with no neighbors. -/
def no_neighbor {S : Type} : S → List S := fun _ => []

/-- The graph of the resumability counterexample: 0 → 1, and 1 and 2 have no
successors. -/
def c6_neighbor : Nat → List Nat := fun s => if s = 0 then [1] else []

/-- Termination predicate of the resumability counterexample: state equals 1. -/
def c6_end : Nat → Nat → Bool := fun _ s => decide (s = 1)

/-- An accumulator function that never changes the accumulator. -/
def keep_acc {A S : Type} : A → S → A := fun a _ => a

/-- The `compute_neighbor_fn` closure of the resumability counterexample. -/
def c6_compute : Nat → Nat → CFlow Nat (List (Nat × Nat)) :=
  search_compute c6_neighbor c6_end keep_acc

/-- Scenario D for Dijkstra: a weighted neighbor function with no successors. -/
def no_wneighbor {S W : Type} : S → W → List (S × W) := fun _ _ => []

/-- A weighted termination predicate that never fires. -/
def never_wend {A S W : Type} : A → S → W → Bool := fun _ _ _ => false

/-- A weighted accumulator function that never changes the accumulator. -/
def keep_wacc {A S W : Type} : A → S → W → A := fun a _ _ => a

/-- `ReachN neighbor_fn start n t`: `t` is reachable from `start` by a path of
exactly `n` edges of the implicit graph given by `neighbor_fn`. -/
inductive ReachN {S : Type} (neighbor_fn : S → List S) (start : S) : Nat → S → Prop
  | zero : ReachN neighbor_fn start 0 start
  | step {n : Nat} {s t : S} : ReachN neighbor_fn start n s → t ∈ neighbor_fn s →
      ReachN neighbor_fn start (n + 1) t

/-- `ReachW adj starts t w`: the pair `(t, w)` is producible from one of the
seed `(state, weight)` pairs by repeatedly moving along adjacency entries
`(next, c)` of `adj`, adding the increment `c` to the cumulative weight. -/
inductive ReachW {S W : Type} [Add W] (adj : S → List (S × W))
    (starts : List (S × W)) : S → W → Prop
  | seed {s : S} {w : W} : (s, w) ∈ starts → ReachW adj starts s w
  | step {s : S} {w : W} {t : S} {c : W} : ReachW adj starts s w →
      (t, c) ∈ adj s → ReachW adj starts t (w + c)

/-- The BFS queue holds (depth, state) entries on at most two consecutive depth
levels `k` and `k + 1`, the level-`k` block in front. -/
def TwoLevelQ {S : Type} (k : Nat) (q : List (Nat × S)) : Prop :=
  ∃ q1 q2, q = q1 ++ q2 ∧ (∀ e ∈ q1, e.1 = k) ∧ (∀ e ∈ q2, e.1 = k + 1)

/-- Instrumented form of the `bfs` wrapper for a state-only termination
predicate: the same recursion as `try_bfs_full` composed with `search_compute`,
but frontier entries carry their discovery depth (number of edges from the
start) and the visited set records each state's expansion depth. -/
def bfs_depth {S : Type} [DecidableEq S] (neighbor_fn : S → List S) (p : S → Bool) :
    Nat → List (Nat × S) → List (S × Nat) →
      Option (CFlow (Nat × S) (List (S × Nat)))
  | 0, _, _ => none
  | _ + 1, [], visited => some (.cont visited)
  | n + 1, (d, current_state) :: work_queue, visited =>
    if current_state ∈ visited.map Prod.fst then
      bfs_depth neighbor_fn p n work_queue visited
    else if p current_state then some (.brk (d, current_state))
    else
      bfs_depth neighbor_fn p n
        (work_queue ++ (neighbor_fn current_state).map fun t => (d + 1, t))
        ((current_state, d) :: visited)

/-- Instrumented form of `dijkstra_full`: the same recursion, but the visited
set records each state's expansion weight. -/
def dijkstra_wvis {A S W : Type} [DecidableEq S] [LinearOrder W]
    (neighbor_fn : S → W → List (S × W)) (end_state_fn : A → S → W → Bool)
    (acc_fn : A → S → W → A) :
    Nat → List (StateWithWeight A S W) → List (S × W) →
      Option (Option (A × S × W) × List (StateWithWeight A S W) × List (S × W))
  | 0, _, _ => none
  | n + 1, work_heap, visited =>
    match heap_pop_min work_heap with
    | none => some (none, [], visited)
    | some (state_with_weight, rest) =>
      match state_with_weight.into with
      | (acc, current_state, current_weight) =>
        if current_state ∈ visited.map Prod.fst then
          dijkstra_wvis neighbor_fn end_state_fn acc_fn n rest visited
        else
          let acc := acc_fn acc current_state current_weight
          if end_state_fn acc current_state current_weight then
            some (some (acc, current_state, current_weight), rest, visited)
          else
            dijkstra_wvis neighbor_fn end_state_fn acc_fn n
              (rest ++ (neighbor_fn current_state current_weight).map
                fun pr => ⟨acc, pr.1, pr.2⟩)
              ((current_state, current_weight) :: visited)

/-- Invariant of the instrumented BFS run (single start, state-only
termination predicate `p`), at queue level `k`. -/
structure BfsInv {S : Type} (neighbor_fn : S → List S) (p : S → Bool) (start : S)
    (k : Nat) (q : List (Nat × S)) (vis : List (S × Nat)) : Prop where
  tl : TwoLevelQ k q
  vdep : ∀ e ∈ vis, e.2 ≤ k
  qreach : ∀ e ∈ q, ReachN neighbor_fn start e.1 e.2
  vnbr : ∀ e ∈ vis, ∀ t ∈ neighbor_fn e.1,
    (∃ e' ∈ vis, e'.1 = t ∧ e'.2 ≤ e.2 + 1) ∨ (∃ d', (d', t) ∈ q ∧ d' ≤ e.2 + 1)
  vstart : (∃ e ∈ vis, e.1 = start ∧ e.2 = 0) ∨ (0, start) ∈ q
  vfalse : ∀ e ∈ vis, p e.1 = false

/-- Invariant of the instrumented Dijkstra run over adjacency increments
`adj` (state-only termination predicate `p`, seed entries `starts`). -/
structure DijInv {A S W : Type} [Add W] [LE W] (adj : S → List (S × W))
    (p : S → Bool) (starts : List (S × W))
    (heap : List (StateWithWeight A S W)) (vis : List (S × W)) : Prop where
  hreach : ∀ e ∈ heap, ReachW adj starts e.state e.weight
  vle : ∀ v ∈ vis, ∀ e ∈ heap, v.2 ≤ e.weight
  vnbr : ∀ v ∈ vis, ∀ t ∈ adj v.1,
    (∃ v' ∈ vis, v'.1 = t.1 ∧ v'.2 ≤ v.2 + t.2) ∨
      (∃ e ∈ heap, e.state = t.1 ∧ e.weight ≤ v.2 + t.2)
  vseed : ∀ sw ∈ starts, (∃ v ∈ vis, v.1 = sw.1 ∧ v.2 ≤ sw.2) ∨
    (∃ e ∈ heap, e.state = sw.1 ∧ e.weight ≤ sw.2)
  vfalse : ∀ v ∈ vis, p v.1 = false

theorem try_dfs_full_tr_fst {A S R : Type} [DecidableEq S]
    (f : A → S → CFlow R (List (A × S))) :
    ∀ (n : Nat) (work_stack : List (A × S)) (visited : List S),
      (try_dfs_full_tr f n work_stack visited).1 =
        try_dfs_full f n work_stack visited
  | 0, _, _ => rfl
  | _ + 1, [], _ => rfl
  | n + 1, (acc, s) :: stack, visited => by
    simp only [try_dfs_full_tr, try_dfs_full]
    split
    · exact try_dfs_full_tr_fst f n stack visited
    · cases f acc s with
      | cont iter => exact try_dfs_full_tr_fst f n (pushAll stack iter) (s :: visited)
      | brk b => rfl

theorem try_bfs_full_tr_fst {A S R : Type} [DecidableEq S]
    (f : A → S → CFlow R (List (A × S))) :
    ∀ (n : Nat) (work_queue : List (A × S)) (visited : List S),
      (try_bfs_full_tr f n work_queue visited).1 =
        try_bfs_full f n work_queue visited
  | 0, _, _ => rfl
  | _ + 1, [], _ => rfl
  | n + 1, (acc, s) :: queue, visited => by
    simp only [try_bfs_full_tr, try_bfs_full]
    split
    · exact try_bfs_full_tr_fst f n queue visited
    · cases f acc s with
      | cont iter => exact try_bfs_full_tr_fst f n (queue ++ iter) (s :: visited)
      | brk b => rfl

theorem dijkstra_full_tr_fst {A S W : Type} [DecidableEq S] [LinearOrder W]
    (neighbor_fn : S → W → List (S × W)) (end_state_fn : A → S → W → Bool)
    (acc_fn : A → S → W → A) :
    ∀ (n : Nat) (work_heap : List (StateWithWeight A S W)) (visited : List S),
      (dijkstra_full_tr neighbor_fn end_state_fn acc_fn n work_heap visited).1 =
        dijkstra_full neighbor_fn end_state_fn acc_fn n work_heap visited
  | 0, _, _ => rfl
  | n + 1, work_heap, visited => by
    simp only [dijkstra_full_tr, dijkstra_full]
    cases hp : heap_pop_min work_heap with
    | none => rfl
    | some mr =>
      obtain ⟨sww, rest⟩ := mr
      obtain ⟨acc, s, w⟩ := sww
      simp only [StateWithWeight.into]
      split
      · exact dijkstra_full_tr_fst neighbor_fn end_state_fn acc_fn n rest visited
      · split
        · rfl
        · exact dijkstra_full_tr_fst neighbor_fn end_state_fn acc_fn n _ _

theorem heap_pop_min_eq_none_iff {A S W : Type} [LinearOrder W] :
    ∀ l : List (StateWithWeight A S W), heap_pop_min l = none ↔ l = []
  | [] => by simp [heap_pop_min]
  | e :: es => by
    simp only [heap_pop_min]
    cases h : heap_pop_min es with
    | none => simp
    | some mr => cases mr with
      | mk m rest => by_cases hw : e.weight ≤ m.weight <;> simp [hw]

theorem heap_pop_min_perm {A S W : Type} [LinearOrder W] :
    ∀ {l : List (StateWithWeight A S W)} {m rest},
      heap_pop_min l = some (m, rest) → l.Perm (m :: rest)
  | [], _, _ => by simp [heap_pop_min]
  | e :: es, m, rest => by
    simp only [heap_pop_min]
    cases h : heap_pop_min es with
    | none =>
      rw [heap_pop_min_eq_none_iff] at h
      subst h
      intro he
      simp only [Option.some.injEq, Prod.mk.injEq] at he
      rw [← he.1, ← he.2]
    | some mr =>
      obtain ⟨m', rest'⟩ := mr
      have hperm : es.Perm (m' :: rest') := heap_pop_min_perm h
      by_cases hw : e.weight ≤ m'.weight
      · simp only [hw, if_true, Option.some.injEq, Prod.mk.injEq]
        intro he
        rw [← he.1, ← he.2]
      · simp only [hw, if_false, Option.some.injEq, Prod.mk.injEq]
        intro he
        rw [← he.1, ← he.2]
        exact (hperm.cons e).trans (List.Perm.swap m' e rest')

theorem heap_pop_min_min {A S W : Type} [LinearOrder W] :
    ∀ {l : List (StateWithWeight A S W)} {m rest},
      heap_pop_min l = some (m, rest) → ∀ x ∈ l, m.weight ≤ x.weight
  | [], _, _ => by simp [heap_pop_min]
  | e :: es, m, rest => by
    simp only [heap_pop_min]
    cases h : heap_pop_min es with
    | none =>
      rw [heap_pop_min_eq_none_iff] at h
      subst h
      intro he
      simp only [Option.some.injEq, Prod.mk.injEq] at he
      intro x hx
      simp only [List.mem_singleton] at hx
      rw [hx, ← he.1]
    | some mr =>
      obtain ⟨m', rest'⟩ := mr
      have hmin : ∀ x ∈ es, m'.weight ≤ x.weight := heap_pop_min_min h
      by_cases hw : e.weight ≤ m'.weight
      · simp only [hw, if_true, Option.some.injEq, Prod.mk.injEq]
        intro he x hx
        rw [← he.1]
        rcases List.mem_cons.mp hx with hx | hx
        · rw [hx]
        · exact le_trans hw (hmin x hx)
      · simp only [hw, if_false, Option.some.injEq, Prod.mk.injEq]
        intro he x hx
        rw [← he.1]
        rcases List.mem_cons.mp hx with hx | hx
        · rw [hx]; exact le_of_not_le hw
        · exact hmin x hx

theorem heap_pop_min_cons_of_min {A S W : Type} [LinearOrder W]
    (e : StateWithWeight A S W) (l : List (StateWithWeight A S W))
    (h : ∀ x ∈ l, e.weight ≤ x.weight) : heap_pop_min (e :: l) = some (e, l) := by
  simp only [heap_pop_min]
  cases hp : heap_pop_min l with
  | none =>
    rw [heap_pop_min_eq_none_iff] at hp
    rw [hp]
  | some mr =>
    obtain ⟨m, rest⟩ := mr
    have hm : m ∈ l := (heap_pop_min_perm hp).mem_iff.mpr (List.mem_cons_self m rest)
    simp [h m hm]

/-- Within one DFS call the states at which `compute_neighbor_fn` is invoked are
pairwise distinct and none of them is in the initial visited set. -/
theorem try_dfs_full_tr_calls_nodup {A S R : Type} [DecidableEq S]
    (f : A → S → CFlow R (List (A × S))) :
    ∀ (n : Nat) (work_stack : List (A × S)) (visited : List S),
      ((try_dfs_full_tr f n work_stack visited).2.2.map Prod.snd).Nodup ∧
        ∀ s ∈ (try_dfs_full_tr f n work_stack visited).2.2.map Prod.snd, s ∉ visited
  | 0, _, _ => by simp [try_dfs_full_tr]
  | _ + 1, [], _ => by simp [try_dfs_full_tr]
  | n + 1, (acc, s) :: stack, visited => by
    simp only [try_dfs_full_tr]
    by_cases hv : s ∈ visited
    · simpa [hv] using try_dfs_full_tr_calls_nodup f n stack visited
    · simp only [hv, if_neg, if_false]
      cases hf : f acc s with
      | brk b => simpa using hv
      | cont iter =>
        have ih := try_dfs_full_tr_calls_nodup f n (pushAll stack iter) (s :: visited)
        simp only [List.map_cons, List.nodup_cons, List.mem_cons] at ih ⊢
        refine ⟨⟨fun hmem => ?_, ih.1⟩, fun t ht => ?_⟩
        · exact (ih.2 s hmem) (Or.inl rfl)
        · rcases ht with ht | ht
          · rw [ht]; exact hv
          · intro hV; exact (ih.2 t ht) (Or.inr hV)

/-- Within one BFS call the states at which `compute_neighbor_fn` is invoked are
pairwise distinct and none of them is in the initial visited set. -/
theorem try_bfs_full_tr_calls_nodup {A S R : Type} [DecidableEq S]
    (f : A → S → CFlow R (List (A × S))) :
    ∀ (n : Nat) (work_queue : List (A × S)) (visited : List S),
      ((try_bfs_full_tr f n work_queue visited).2.2.map Prod.snd).Nodup ∧
        ∀ s ∈ (try_bfs_full_tr f n work_queue visited).2.2.map Prod.snd, s ∉ visited
  | 0, _, _ => by simp [try_bfs_full_tr]
  | _ + 1, [], _ => by simp [try_bfs_full_tr]
  | n + 1, (acc, s) :: queue, visited => by
    simp only [try_bfs_full_tr]
    by_cases hv : s ∈ visited
    · simpa [hv] using try_bfs_full_tr_calls_nodup f n queue visited
    · simp only [hv, if_neg, if_false]
      cases hf : f acc s with
      | brk b => simpa using hv
      | cont iter =>
        have ih := try_bfs_full_tr_calls_nodup f n (queue ++ iter) (s :: visited)
        simp only [List.map_cons, List.nodup_cons, List.mem_cons] at ih ⊢
        refine ⟨⟨fun hmem => ?_, ih.1⟩, fun t ht => ?_⟩
        · exact (ih.2 s hmem) (Or.inl rfl)
        · rcases ht with ht | ht
          · rw [ht]; exact hv
          · intro hV; exact (ih.2 t ht) (Or.inr hV)

/-- Within one Dijkstra call the states at which the caller-supplied functions
are invoked are pairwise distinct and none of them is in the initial visited
set. -/
theorem dijkstra_full_tr_calls_nodup {A S W : Type} [DecidableEq S] [LinearOrder W]
    (neighbor_fn : S → W → List (S × W)) (end_state_fn : A → S → W → Bool)
    (acc_fn : A → S → W → A) :
    ∀ (n : Nat) (work_heap : List (StateWithWeight A S W)) (visited : List S),
      ((dijkstra_full_tr neighbor_fn end_state_fn acc_fn n work_heap
          visited).2.2.map fun e => e.2.1).Nodup ∧
        ∀ s ∈ (dijkstra_full_tr neighbor_fn end_state_fn acc_fn n work_heap
          visited).2.2.map fun e => e.2.1, s ∉ visited
  | 0, _, _ => by simp [dijkstra_full_tr]
  | n + 1, work_heap, visited => by
    simp only [dijkstra_full_tr]
    cases hp : heap_pop_min work_heap with
    | none => simp
    | some mr =>
      obtain ⟨sww, rest⟩ := mr
      obtain ⟨acc, s, w⟩ := sww
      simp only [StateWithWeight.into]
      by_cases hv : s ∈ visited
      · simpa [hv] using dijkstra_full_tr_calls_nodup neighbor_fn end_state_fn
          acc_fn n rest visited
      · simp only [hv, if_neg, if_false]
        by_cases he : end_state_fn (acc_fn acc s w) s w = true
        · simpa [he] using hv
        · simp only [he, Bool.not_eq_true, Bool.false_eq_true, if_false]
          have ih := dijkstra_full_tr_calls_nodup neighbor_fn end_state_fn acc_fn n
            (rest ++ (neighbor_fn s w).map fun p => ⟨acc_fn acc s w, p.1, p.2⟩)
            (s :: visited)
          simp only [List.map_cons, List.nodup_cons, List.mem_cons] at ih ⊢
          refine ⟨⟨fun hmem => ?_, ih.1⟩, fun t ht => ?_⟩
          · exact (ih.2 s hmem) (Or.inl rfl)
          · rcases ht with ht | ht
            · rw [ht]; exact hv
            · intro hV; exact (ih.2 t ht) (Or.inr hV)

/-- In DFS, `compute_neighbor_fn` (hence `acc_fn`) is invoked exactly at the
popped entries whose visited check came out false, in pop order. -/
theorem try_dfs_full_tr_calls_eq_filter {A S R : Type} [DecidableEq S]
    (f : A → S → CFlow R (List (A × S))) :
    ∀ (n : Nat) (work_stack : List (A × S)) (visited : List S),
      (try_dfs_full_tr f n work_stack visited).2.2 =
        ((try_dfs_full_tr f n work_stack visited).2.1.filter
          fun e => !e.2.2).map fun e => (e.1, e.2.1)
  | 0, _, _ => by simp [try_dfs_full_tr]
  | _ + 1, [], _ => by simp [try_dfs_full_tr]
  | n + 1, (acc, s) :: stack, visited => by
    simp only [try_dfs_full_tr]
    by_cases hv : s ∈ visited
    · simpa [hv, List.filter] using try_dfs_full_tr_calls_eq_filter f n stack visited
    · simp only [hv, if_neg, if_false]
      cases hf : f acc s with
      | brk b => simp [List.filter]
      | cont iter =>
        simpa [List.filter] using
          try_dfs_full_tr_calls_eq_filter f n (pushAll stack iter) (s :: visited)

/-- In BFS, `compute_neighbor_fn` (hence `acc_fn`) is invoked exactly at the
popped entries whose visited check came out false, in pop order. -/
theorem try_bfs_full_tr_calls_eq_filter {A S R : Type} [DecidableEq S]
    (f : A → S → CFlow R (List (A × S))) :
    ∀ (n : Nat) (work_queue : List (A × S)) (visited : List S),
      (try_bfs_full_tr f n work_queue visited).2.2 =
        ((try_bfs_full_tr f n work_queue visited).2.1.filter
          fun e => !e.2.2).map fun e => (e.1, e.2.1)
  | 0, _, _ => by simp [try_bfs_full_tr]
  | _ + 1, [], _ => by simp [try_bfs_full_tr]
  | n + 1, (acc, s) :: queue, visited => by
    simp only [try_bfs_full_tr]
    by_cases hv : s ∈ visited
    · simpa [hv, List.filter] using try_bfs_full_tr_calls_eq_filter f n queue visited
    · simp only [hv, if_neg, if_false]
      cases hf : f acc s with
      | brk b => simp [List.filter]
      | cont iter =>
        simpa [List.filter] using
          try_bfs_full_tr_calls_eq_filter f n (queue ++ iter) (s :: visited)

/-- A DFS run that exhausts its frontier never saw `compute_neighbor_fn` break. -/
theorem try_dfs_full_tr_cont_no_brk {A S R : Type} [DecidableEq S]
    (f : A → S → CFlow R (List (A × S))) :
    ∀ (n : Nat) (work_stack : List (A × S)) (visited v : List S),
      (try_dfs_full_tr f n work_stack visited).1 = some (.cont v) →
        ∀ e ∈ (try_dfs_full_tr f n work_stack visited).2.2, ∀ b, f e.1 e.2 ≠ .brk b
  | 0, _, _, _ => by simp [try_dfs_full_tr]
  | _ + 1, [], _, _ => by simp [try_dfs_full_tr]
  | n + 1, (acc, s) :: stack, visited, v => by
    simp only [try_dfs_full_tr]
    by_cases hv : s ∈ visited
    · simpa [hv] using try_dfs_full_tr_cont_no_brk f n stack visited v
    · simp only [hv, if_neg, if_false]
      cases hf : f acc s with
      | brk b => simp
      | cont iter =>
        intro h e he b
        rcases List.mem_cons.mp he with he | he
        · rw [he, hf]; simp
        · exact try_dfs_full_tr_cont_no_brk f n (pushAll stack iter)
            (s :: visited) v h e he b

/-- A DFS run that breaks did so at an invocation of `compute_neighbor_fn` on the
returned terminal state, returning the break value. -/
theorem try_dfs_full_tr_brk_call {A S R : Type} [DecidableEq S]
    (f : A → S → CFlow R (List (A × S))) :
    ∀ (n : Nat) (work_stack : List (A × S)) (visited : List S) b s F' V',
      (try_dfs_full_tr f n work_stack visited).1 = some (.brk (b, s, F', V')) →
        ∃ a, (a, s) ∈ (try_dfs_full_tr f n work_stack visited).2.2 ∧ f a s = .brk b
  | 0, _, _, _, _, _, _ => by simp [try_dfs_full_tr]
  | _ + 1, [], _, _, _, _, _ => by simp [try_dfs_full_tr]
  | n + 1, (acc, s0) :: stack, visited, b, s, F', V' => by
    simp only [try_dfs_full_tr]
    by_cases hv : s0 ∈ visited
    · simpa [hv] using try_dfs_full_tr_brk_call f n stack visited b s F' V'
    · simp only [hv, if_neg, if_false]
      cases hf : f acc s0 with
      | brk b0 =>
        intro h
        simp only [Option.some.injEq, CFlow.brk.injEq, Prod.mk.injEq] at h
        exact ⟨acc, by simp [← h.2.1], by rw [← h.2.1, hf, h.1]⟩
      | cont iter =>
        intro h
        obtain ⟨a, ha⟩ := try_dfs_full_tr_brk_call f n (pushAll stack iter)
          (s0 :: visited) b s F' V' h
        exact ⟨a, List.mem_cons_of_mem _ ha.1, ha.2⟩

/-- A BFS run that exhausts its frontier never saw `compute_neighbor_fn` break. -/
theorem try_bfs_full_tr_cont_no_brk {A S R : Type} [DecidableEq S]
    (f : A → S → CFlow R (List (A × S))) :
    ∀ (n : Nat) (work_queue : List (A × S)) (visited v : List S),
      (try_bfs_full_tr f n work_queue visited).1 = some (.cont v) →
        ∀ e ∈ (try_bfs_full_tr f n work_queue visited).2.2, ∀ b, f e.1 e.2 ≠ .brk b
  | 0, _, _, _ => by simp [try_bfs_full_tr]
  | _ + 1, [], _, _ => by simp [try_bfs_full_tr]
  | n + 1, (acc, s) :: queue, visited, v => by
    simp only [try_bfs_full_tr]
    by_cases hv : s ∈ visited
    · simpa [hv] using try_bfs_full_tr_cont_no_brk f n queue visited v
    · simp only [hv, if_neg, if_false]
      cases hf : f acc s with
      | brk b => simp
      | cont iter =>
        intro h e he b
        rcases List.mem_cons.mp he with he | he
        · rw [he, hf]; simp
        · exact try_bfs_full_tr_cont_no_brk f n (queue ++ iter)
            (s :: visited) v h e he b

/-- A BFS run that breaks did so at an invocation of `compute_neighbor_fn` on the
returned terminal state, returning the break value. -/
theorem try_bfs_full_tr_brk_call {A S R : Type} [DecidableEq S]
    (f : A → S → CFlow R (List (A × S))) :
    ∀ (n : Nat) (work_queue : List (A × S)) (visited : List S) b s F' V',
      (try_bfs_full_tr f n work_queue visited).1 = some (.brk (b, s, F', V')) →
        ∃ a, (a, s) ∈ (try_bfs_full_tr f n work_queue visited).2.2 ∧ f a s = .brk b
  | 0, _, _, _, _, _, _ => by simp [try_bfs_full_tr]
  | _ + 1, [], _, _, _, _, _ => by simp [try_bfs_full_tr]
  | n + 1, (acc, s0) :: queue, visited, b, s, F', V' => by
    simp only [try_bfs_full_tr]
    by_cases hv : s0 ∈ visited
    · simpa [hv] using try_bfs_full_tr_brk_call f n queue visited b s F' V'
    · simp only [hv, if_neg, if_false]
      cases hf : f acc s0 with
      | brk b0 =>
        intro h
        simp only [Option.some.injEq, CFlow.brk.injEq, Prod.mk.injEq] at h
        exact ⟨acc, by simp [← h.2.1], by rw [← h.2.1, hf, h.1]⟩
      | cont iter =>
        intro h
        obtain ⟨a, ha⟩ := try_bfs_full_tr_brk_call f n (queue ++ iter)
          (s0 :: visited) b s F' V' h
        exact ⟨a, List.mem_cons_of_mem _ ha.1, ha.2⟩

/-- A Dijkstra run that exhausts its heap never saw `end_state_fn` return true. -/
theorem dijkstra_full_tr_none_no_end {A S W : Type} [DecidableEq S] [LinearOrder W]
    (neighbor_fn : S → W → List (S × W)) (end_state_fn : A → S → W → Bool)
    (acc_fn : A → S → W → A) :
    ∀ (n : Nat) (work_heap : List (StateWithWeight A S W)) (visited : List S)
      (H' : List (StateWithWeight A S W)) (V' : List S),
      (dijkstra_full_tr neighbor_fn end_state_fn acc_fn n work_heap visited).1 =
          some (none, H', V') →
        ∀ e ∈ (dijkstra_full_tr neighbor_fn end_state_fn acc_fn n work_heap
            visited).2.2,
          end_state_fn (acc_fn e.1 e.2.1 e.2.2) e.2.1 e.2.2 = false
  | 0, _, _, _, _ => by simp [dijkstra_full_tr]
  | n + 1, work_heap, visited, H', V' => by
    simp only [dijkstra_full_tr]
    cases hp : heap_pop_min work_heap with
    | none => simp
    | some mr =>
      obtain ⟨sww, rest⟩ := mr
      obtain ⟨acc, s, w⟩ := sww
      simp only [StateWithWeight.into]
      by_cases hv : s ∈ visited
      · simpa [hv] using dijkstra_full_tr_none_no_end neighbor_fn end_state_fn
          acc_fn n rest visited H' V'
      · simp only [hv, if_neg, if_false]
        by_cases he : end_state_fn (acc_fn acc s w) s w = true
        · simp [he]
        · simp only [he, Bool.not_eq_true, Bool.false_eq_true, if_false]
          intro h e hmem
          rcases List.mem_cons.mp hmem with hmem | hmem
          · rw [hmem]
            exact Bool.not_eq_true _ |>.mp he
          · exact dijkstra_full_tr_none_no_end neighbor_fn end_state_fn acc_fn n
              (rest ++ (neighbor_fn s w).map fun p => ⟨acc_fn acc s w, p.1, p.2⟩)
              (s :: visited) H' V' h e hmem

/-- A Dijkstra run that returns `Some` did so at an invocation on the returned
terminal state and weight, where `end_state_fn` returned true. -/
theorem dijkstra_full_tr_some_end {A S W : Type} [DecidableEq S] [LinearOrder W]
    (neighbor_fn : S → W → List (S × W)) (end_state_fn : A → S → W → Bool)
    (acc_fn : A → S → W → A) :
    ∀ (n : Nat) (work_heap : List (StateWithWeight A S W)) (visited : List S)
      (a2 : A) (s : S) (w : W) (H' : List (StateWithWeight A S W)) (V' : List S),
      (dijkstra_full_tr neighbor_fn end_state_fn acc_fn n work_heap visited).1 =
          some (some (a2, s, w), H', V') →
        ∃ acc, (acc, s, w) ∈ (dijkstra_full_tr neighbor_fn end_state_fn acc_fn n
            work_heap visited).2.2 ∧
          acc_fn acc s w = a2 ∧ end_state_fn a2 s w = true
  | 0, _, _, _, _, _, _, _ => by simp [dijkstra_full_tr]
  | n + 1, work_heap, visited, a2, s, w, H', V' => by
    simp only [dijkstra_full_tr]
    cases hp : heap_pop_min work_heap with
    | none => simp
    | some mr =>
      obtain ⟨sww, rest⟩ := mr
      obtain ⟨acc, s0, w0⟩ := sww
      simp only [StateWithWeight.into]
      by_cases hv : s0 ∈ visited
      · simpa [hv] using dijkstra_full_tr_some_end neighbor_fn end_state_fn
          acc_fn n rest visited a2 s w H' V'
      · simp only [hv, if_neg, if_false]
        by_cases he : end_state_fn (acc_fn acc s0 w0) s0 w0 = true
        · simp only [he, if_true]
          intro h
          simp only [Option.some.injEq, Prod.mk.injEq] at h
          refine ⟨acc, ?_, ?_, ?_⟩
          · simp [← h.1.2.1, ← h.1.2.2]
          · rw [← h.1.2.1, ← h.1.2.2]; exact h.1.1
          · rw [← h.1.1, ← h.1.2.1, ← h.1.2.2]; exact he
        · simp only [he, Bool.not_eq_true, Bool.false_eq_true, if_false]
          intro h
          obtain ⟨a0, ha0⟩ := dijkstra_full_tr_some_end neighbor_fn end_state_fn
            acc_fn n
            (rest ++ (neighbor_fn s0 w0).map fun p => ⟨acc_fn acc s0 w0, p.1, p.2⟩)
            (s0 :: visited) a2 s w H' V' h
          exact ⟨a0, List.mem_cons_of_mem _ ha0.1, ha0.2⟩

/-- Fuel monotonicity for the DFS model: a completed run is stable under more
fuel. -/
theorem try_dfs_full_mono {A S R : Type} [DecidableEq S]
    (f : A → S → CFlow R (List (A × S))) :
    ∀ (n m : Nat) (work_stack : List (A × S)) (visited : List S) r, n ≤ m →
      try_dfs_full f n work_stack visited = some r →
      try_dfs_full f m work_stack visited = some r
  | 0, _, _, _, _, _, h => by simp [try_dfs_full] at h
  | _ + 1, 0, _, _, _, hle, _ => absurd hle (by omega)
  | _ + 1, _ + 1, [], _, _, _, h => by simpa [try_dfs_full] using h
  | n + 1, m + 1, (acc, s) :: stack, visited, r, hle, h => by
    simp only [try_dfs_full] at h ⊢
    by_cases hv : s ∈ visited
    · simp only [hv, if_true] at h ⊢
      exact try_dfs_full_mono f n m stack visited r (by omega) h
    · simp only [hv, if_false] at h ⊢
      cases hf : f acc s with
      | cont iter => rw [hf] at h; exact try_dfs_full_mono f n m _ _ r (by omega) h
      | brk b => rw [hf] at h; exact h

/-- Fuel monotonicity for the BFS model. -/
theorem try_bfs_full_mono {A S R : Type} [DecidableEq S]
    (f : A → S → CFlow R (List (A × S))) :
    ∀ (n m : Nat) (work_queue : List (A × S)) (visited : List S) r, n ≤ m →
      try_bfs_full f n work_queue visited = some r →
      try_bfs_full f m work_queue visited = some r
  | 0, _, _, _, _, _, h => by simp [try_bfs_full] at h
  | _ + 1, 0, _, _, _, hle, _ => absurd hle (by omega)
  | _ + 1, _ + 1, [], _, _, _, h => by simpa [try_bfs_full] using h
  | n + 1, m + 1, (acc, s) :: queue, visited, r, hle, h => by
    simp only [try_bfs_full] at h ⊢
    by_cases hv : s ∈ visited
    · simp only [hv, if_true] at h ⊢
      exact try_bfs_full_mono f n m queue visited r (by omega) h
    · simp only [hv, if_false] at h ⊢
      cases hf : f acc s with
      | cont iter => rw [hf] at h; exact try_bfs_full_mono f n m _ _ r (by omega) h
      | brk b => rw [hf] at h; exact h

/-- Fuel monotonicity for the Dijkstra model. -/
theorem dijkstra_full_mono {A S W : Type} [DecidableEq S] [LinearOrder W]
    (neighbor_fn : S → W → List (S × W)) (end_state_fn : A → S → W → Bool)
    (acc_fn : A → S → W → A) :
    ∀ (n m : Nat) (work_heap : List (StateWithWeight A S W)) (visited : List S) r,
      n ≤ m →
      dijkstra_full neighbor_fn end_state_fn acc_fn n work_heap visited = some r →
      dijkstra_full neighbor_fn end_state_fn acc_fn m work_heap visited = some r
  | 0, _, _, _, _, _, h => by simp [dijkstra_full] at h
  | _ + 1, 0, _, _, _, hle, _ => absurd hle (by omega)
  | n + 1, m + 1, work_heap, visited, r, hle, h => by
    simp only [dijkstra_full] at h ⊢
    cases hp : heap_pop_min work_heap with
    | none => rw [hp] at h; exact h
    | some mr =>
      obtain ⟨sww, rest⟩ := mr
      obtain ⟨acc, s, w⟩ := sww
      rw [hp] at h
      simp only [StateWithWeight.into] at h ⊢
      by_cases hv : s ∈ visited
      · simp only [hv, if_true] at h ⊢
        exact dijkstra_full_mono neighbor_fn end_state_fn acc_fn n m rest visited
          r (by omega) h
      · simp only [hv, if_false] at h ⊢
        by_cases he : end_state_fn (acc_fn acc s w) s w = true
        · simp only [he, if_true] at h ⊢; exact h
        · simp only [he, Bool.false_eq_true, if_false] at h ⊢
          exact dijkstra_full_mono neighbor_fn end_state_fn acc_fn n m _ _
            r (by omega) h

/-- `search_compute` breaks exactly when the termination predicate fires on the
freshly computed accumulator, and then the break value is that accumulator. -/
theorem search_compute_brk_iff {A S : Type} (neighbor_fn : S → List S)
    (end_state_fn : A → S → Bool) (acc_fn : A → S → A) (acc : A) (s : S) (b : A) :
    search_compute neighbor_fn end_state_fn acc_fn acc s = .brk b ↔
      end_state_fn (acc_fn acc s) s = true ∧ b = acc_fn acc s := by
  simp only [search_compute]
  by_cases h : end_state_fn (acc_fn acc s) s = true
  · simp only [h, if_true, true_and]
    constructor
    · intro hb; cases hb; rfl
    · intro hb; rw [hb]
  · simp [h]

/-- A DFS break arises by popping the terminal entry: the returned residual
stack and visited set are those in effect right after the pop, the terminal
state is not in the returned visited set, and re-running from the pre-pop
configuration reproduces the break verbatim. -/
theorem try_dfs_full_brk_config {A S R : Type} [DecidableEq S]
    (f : A → S → CFlow R (List (A × S))) :
    ∀ (n : Nat) (F : List (A × S)) (V : List S) b s F' V',
      try_dfs_full f n F V = some (.brk (b, s, F', V')) →
      ∃ a m, 0 < m ∧ m ≤ n ∧ s ∉ V' ∧ f a s = .brk b ∧
        try_dfs_full f m ((a, s) :: F') V' = some (.brk (b, s, F', V'))
  | 0, _, _, _, _, _, _ => by simp [try_dfs_full]
  | _ + 1, [], _, _, _, _, _ => by simp [try_dfs_full]
  | n + 1, (a0, s0) :: F, V, b, s, F', V' => by
    simp only [try_dfs_full]
    by_cases hv : s0 ∈ V
    · simp only [hv, if_true]
      intro h
      obtain ⟨a, m, hm0, hmn, h3⟩ := try_dfs_full_brk_config f n F V b s F' V' h
      exact ⟨a, m, hm0, by omega, h3⟩
    · simp only [hv, if_false]
      cases hf : f a0 s0 with
      | cont iter =>
        intro h
        obtain ⟨a, m, hm0, hmn, h3⟩ :=
          try_dfs_full_brk_config f n (pushAll F iter) (s0 :: V) b s F' V' h
        exact ⟨a, m, hm0, by omega, h3⟩
      | brk b0 =>
        intro h
        simp only [Option.some.injEq, CFlow.brk.injEq, Prod.mk.injEq] at h
        obtain ⟨hb, hs, hF, hV⟩ := h
        subst hb hs hF hV
        refine ⟨a0, 1, by omega, by omega, hv, hf, ?_⟩
        simp only [try_dfs_full, hv, if_false, hf]

/-- A BFS break arises by popping the terminal entry, as in
`try_dfs_full_brk_config`. -/
theorem try_bfs_full_brk_config {A S R : Type} [DecidableEq S]
    (f : A → S → CFlow R (List (A × S))) :
    ∀ (n : Nat) (F : List (A × S)) (V : List S) b s F' V',
      try_bfs_full f n F V = some (.brk (b, s, F', V')) →
      ∃ a m, 0 < m ∧ m ≤ n ∧ s ∉ V' ∧ f a s = .brk b ∧
        try_bfs_full f m ((a, s) :: F') V' = some (.brk (b, s, F', V'))
  | 0, _, _, _, _, _, _ => by simp [try_bfs_full]
  | _ + 1, [], _, _, _, _, _ => by simp [try_bfs_full]
  | n + 1, (a0, s0) :: F, V, b, s, F', V' => by
    simp only [try_bfs_full]
    by_cases hv : s0 ∈ V
    · simp only [hv, if_true]
      intro h
      obtain ⟨a, m, hm0, hmn, h3⟩ := try_bfs_full_brk_config f n F V b s F' V' h
      exact ⟨a, m, hm0, by omega, h3⟩
    · simp only [hv, if_false]
      cases hf : f a0 s0 with
      | cont iter =>
        intro h
        obtain ⟨a, m, hm0, hmn, h3⟩ :=
          try_bfs_full_brk_config f n (F ++ iter) (s0 :: V) b s F' V' h
        exact ⟨a, m, hm0, by omega, h3⟩
      | brk b0 =>
        intro h
        simp only [Option.some.injEq, CFlow.brk.injEq, Prod.mk.injEq] at h
        obtain ⟨hb, hs, hF, hV⟩ := h
        subst hb hs hF hV
        refine ⟨a0, 1, by omega, by omega, hv, hf, ?_⟩
        simp only [try_bfs_full, hv, if_false, hf]

/-- A Dijkstra `Some` return arises by popping the terminal entry off the heap:
the returned residual heap and visited set are those in effect right after the
pop, the terminal state is not in the returned visited set, and re-running from
the heap with the terminal entry put back reproduces the return verbatim. -/
theorem dijkstra_full_brk_config {A S W : Type} [DecidableEq S] [LinearOrder W]
    (neighbor_fn : S → W → List (S × W)) (end_state_fn : A → S → W → Bool)
    (acc_fn : A → S → W → A) :
    ∀ (n : Nat) (H : List (StateWithWeight A S W)) (V : List S) a2 s w H' V',
      dijkstra_full neighbor_fn end_state_fn acc_fn n H V =
          some (some (a2, s, w), H', V') →
      ∃ acc m, 0 < m ∧ m ≤ n ∧ s ∉ V' ∧ acc_fn acc s w = a2 ∧
        end_state_fn a2 s w = true ∧
        dijkstra_full neighbor_fn end_state_fn acc_fn m
          (⟨acc, s, w⟩ :: H') V' = some (some (a2, s, w), H', V')
  | 0, _, _, _, _, _, _, _ => by simp [dijkstra_full]
  | n + 1, H, V, a2, s, w, H', V' => by
    simp only [dijkstra_full]
    cases hp : heap_pop_min H with
    | none => simp
    | some mr =>
      obtain ⟨sww, rest⟩ := mr
      obtain ⟨acc0, s0, w0⟩ := sww
      simp only [StateWithWeight.into]
      by_cases hv : s0 ∈ V
      · simp only [hv, if_true]
        intro h
        obtain ⟨a, m, hm0, hmn, h3⟩ :=
          dijkstra_full_brk_config neighbor_fn end_state_fn acc_fn n rest V
            a2 s w H' V' h
        exact ⟨a, m, hm0, by omega, h3⟩
      · simp only [hv, if_false]
        by_cases he : end_state_fn (acc_fn acc0 s0 w0) s0 w0 = true
        · simp only [he, if_true]
          intro h
          simp only [Option.some.injEq, Prod.mk.injEq] at h
          obtain ⟨⟨ha, hs, hw⟩, hH, hV⟩ := h
          subst hs hw hH hV
          refine ⟨acc0, 1, by omega, by omega, hv, ha, by rw [← ha]; exact he, ?_⟩
          have hmin : ∀ x ∈ rest, (⟨acc0, s0, w0⟩ : StateWithWeight A S W).weight ≤
              x.weight := by
            intro x hx
            exact heap_pop_min_min hp x ((heap_pop_min_perm hp).mem_iff.mpr
              (List.mem_cons_of_mem _ hx))
          rw [show (1 : Nat) = 0 + 1 by rfl]
          simp only [dijkstra_full, heap_pop_min_cons_of_min _ _ hmin,
            StateWithWeight.into, hv, if_false, he, if_true, ha]
          rw [ha] at he
          simp [he]
        · simp only [he, Bool.false_eq_true, if_false]
          intro h
          obtain ⟨a, m, hm0, hmn, h3⟩ :=
            dijkstra_full_brk_config neighbor_fn end_state_fn acc_fn n
              (rest ++ (neighbor_fn s0 w0).map fun p => ⟨acc_fn acc0 s0 w0, p.1, p.2⟩)
              (s0 :: V) a2 s w H' V' h
          exact ⟨a, m, hm0, by omega, h3⟩

/-- Pushing items onto a stack with inert entries beneath leaves those entries
beneath. -/
theorem pushAll_append {A S : Type} :
    ∀ (items stack X : List (A × S)),
      pushAll (stack ++ X) items = pushAll stack items ++ X
  | [], _, _ => rfl
  | i :: it, stack, X => by
    simp only [pushAll, List.foldl_cons]
    exact pushAll_append it (i :: stack) X

/-- DFS decomposition (resumability): extra seed entries placed beneath the
initial stack ride along untouched: if the run on the original stack breaks,
the run on the extended stack breaks identically with the extra entries still
beneath the residual; if it exhausts the original stack, the extended run
continues as a run on the extra entries seeded with the returned visited set. -/
theorem try_dfs_full_append {A S R : Type} [DecidableEq S]
    (f : A → S → CFlow R (List (A × S))) :
    ∀ (n : Nat) (F X : List (A × S)) (V : List S),
      (∀ b s F' V', try_dfs_full f n F V = some (.brk (b, s, F', V')) →
        try_dfs_full f n (F ++ X) V = some (.brk (b, s, F' ++ X, V'))) ∧
      (∀ V', try_dfs_full f n F V = some (.cont V') →
        ∀ m r, try_dfs_full f m X V' = some r →
          try_dfs_full f (n + m) (F ++ X) V = some r)
  | 0, _, _, _ => by simp [try_dfs_full]
  | n + 1, [], X, V => by
    constructor
    · intro b s F' V' h
      simp [try_dfs_full] at h
    · intro V' h m r hr
      simp only [try_dfs_full, Option.some.injEq, CFlow.cont.injEq] at h
      subst h
      simpa using try_dfs_full_mono f m (n + 1 + m) X V r (by omega) hr
  | n + 1, (a0, s0) :: F, X, V => by
    constructor
    · intro b s F' V' h
      simp only [try_dfs_full] at h ⊢
      by_cases hv : s0 ∈ V
      · simp only [hv, if_true] at h ⊢
        exact (try_dfs_full_append f n F X V).1 b s F' V' h
      · simp only [hv, if_false] at h ⊢
        cases hf : f a0 s0 with
        | cont iter =>
          rw [hf] at h
          show try_dfs_full f n (pushAll (F ++ X) iter) (s0 :: V) =
            some (.brk (b, s, F' ++ X, V'))
          rw [pushAll_append]
          exact (try_dfs_full_append f n (pushAll F iter) X (s0 :: V)).1 b s F' V' h
        | brk b0 =>
          rw [hf] at h
          simp only [Option.some.injEq, CFlow.brk.injEq, Prod.mk.injEq] at h
          obtain ⟨hb, hs, hF, hV⟩ := h
          subst hb hs hF hV
          rfl
    · intro V' h m r hr
      simp only [try_dfs_full] at h
      have hstep : (n + 1) + m = (n + m) + 1 := by omega
      by_cases hv : s0 ∈ V
      · simp only [hv, if_true] at h
        have := (try_dfs_full_append f n F X V).2 V' h m r hr
        rw [hstep]
        simpa [try_dfs_full, hv] using this
      · simp only [hv, if_false] at h
        cases hf : f a0 s0 with
        | cont iter =>
          rw [hf] at h
          have := (try_dfs_full_append f n (pushAll F iter) X (s0 :: V)).2 V' h m r hr
          rw [hstep]
          rw [show ((a0, s0) :: F) ++ X = (a0, s0) :: (F ++ X) by rfl]
          simp only [try_dfs_full, hv, if_false, hf]
          rwa [pushAll_append]
        | brk b0 => rw [hf] at h; simp at h

theorem twoLevelQ_nil {S : Type} (k : Nat) : TwoLevelQ (S := S) k [] :=
  ⟨[], [], rfl, by simp, by simp⟩

/-- Normalisation of a nonempty two-level queue: the head depth `d` is a valid
level for the whole queue, the tail is two-level at `d`, every tail entry has
depth between `d` and `d + 1`, and appending depth-`(d+1)` entries at the back
keeps the tail two-level at `d`. -/
theorem twoLevelQ_cons_norm {S : Type} {k d : Nat} {s : S} {q' : List (Nat × S)}
    (h : TwoLevelQ k ((d, s) :: q')) :
    k ≤ d ∧ TwoLevelQ d q' ∧ (∀ e ∈ q', d ≤ e.1 ∧ e.1 ≤ d + 1) ∧
      ∀ X : List (Nat × S), (∀ e ∈ X, e.1 = d + 1) → TwoLevelQ d (q' ++ X) := by
  obtain ⟨q1, q2, heq, h1, h2⟩ := h
  cases q1 with
  | nil =>
    simp only [List.nil_append] at heq
    have hd : d = k + 1 := by
      have := h2 (d, s) (by rw [← heq]; exact List.mem_cons_self _ _)
      simpa using this
    have hq' : ∀ e ∈ q', e.1 = k + 1 := by
      intro e he
      exact h2 e (by rw [← heq]; exact List.mem_cons_of_mem _ he)
    subst hd
    refine ⟨by omega, ⟨q', [], by simp, fun e he => hq' e he, by simp⟩,
      fun e he => by rw [hq' e he]; omega, fun X hX => ?_⟩
    exact ⟨q', X, rfl, fun e he => hq' e he, hX⟩
  | cons e0 q1' =>
    simp only [List.cons_append, List.cons.injEq] at heq
    obtain ⟨he0, hq'⟩ := heq
    have hd : d = k := by
      have := h1 e0 (List.mem_cons_self _ _)
      rw [← he0] at this
      simpa using this
    subst hd
    have h1' : ∀ e ∈ q1', e.1 = d := fun e he => h1 e (List.mem_cons_of_mem _ he)
    refine ⟨le_refl d, ⟨q1', q2, hq', h1', h2⟩, fun e he => ?_, fun X hX => ?_⟩
    · rw [hq'] at he
      rcases List.mem_append.mp he with he | he
      · rw [h1' e he]; omega
      · rw [h2 e he]; omega
    · refine ⟨q1', q2 ++ X, by rw [hq', List.append_assoc], h1', fun e he => ?_⟩
      rcases List.mem_append.mp he with he | he
      · exact h2 e he
      · exact hX e he

theorem reachN_zero_inv {S : Type} {nbr : S → List S} {start t : S}
    (h : ReachN nbr start 0 t) : t = start := by
  cases h
  rfl

theorem reachN_succ_inv {S : Type} {nbr : S → List S} {start t : S} {m : Nat}
    (h : ReachN nbr start (m + 1) t) :
    ∃ u, ReachN nbr start m u ∧ t ∈ nbr u := by
  cases h with
  | step hu ht => exact ⟨_, hu, ht⟩

theorem bfsInv_init {S : Type} (nbr : S → List S) (p : S → Bool) (start : S) :
    BfsInv nbr p start 0 [(0, start)] [] where
  tl := ⟨[(0, start)], [], rfl, by simp, by simp⟩
  vdep := by simp
  qreach := by
    intro e he
    simp only [List.mem_singleton] at he
    rw [he]
    exact ReachN.zero
  vnbr := by simp
  vstart := Or.inr (List.mem_singleton_self _)
  vfalse := by simp

/-- When the queue has emptied, the visited set covers every reachable state at
a depth bounded by its distance. -/
theorem bfsInv_closed {S : Type} {nbr : S → List S} {p : S → Bool} {start : S}
    {k : Nat} {vis : List (S × Nat)} (inv : BfsInv nbr p start k [] vis) :
    ∀ m t, ReachN nbr start m t → ∃ e ∈ vis, e.1 = t ∧ e.2 ≤ m := by
  intro m
  induction m with
  | zero =>
    intro t ht
    rw [reachN_zero_inv ht]
    rcases inv.vstart with ⟨e, he, h1, h2⟩ | h
    · exact ⟨e, he, h1, by omega⟩
    · simp at h
  | succ m ih =>
    intro t ht
    obtain ⟨u, hu, htu⟩ := reachN_succ_inv ht
    obtain ⟨e, he, h1, h2⟩ := ih u hu
    rcases inv.vnbr e he t (by rw [h1]; exact htu) with ⟨e', he', h1', h2'⟩ | ⟨d', hd', _⟩
    · exact ⟨e', he', h1', by omega⟩
    · simp at hd'

/-- Minimality at a break: if the queue head `(d, s)` is popped unvisited with
`p s` true, then no match is reachable in fewer than `d` edges. -/
theorem bfsInv_break_min {S : Type} {nbr : S → List S} {p : S → Bool} {start : S}
    {k d : Nat} {s : S} {q' : List (Nat × S)} {vis : List (S × Nat)}
    (inv : BfsInv nbr p start k ((d, s) :: q') vis) :
    ∀ m t, ReachN nbr start m t → p t = true → d ≤ m := by
  obtain ⟨hkd, htl, hbound, _⟩ := twoLevelQ_cons_norm inv.tl
  have aux : ∀ m, m < d → ∀ t, ReachN nbr start m t →
      ∃ e ∈ vis, e.1 = t ∧ e.2 ≤ m := by
    intro m
    induction m with
    | zero =>
      intro hm t ht
      rw [reachN_zero_inv ht]
      rcases inv.vstart with ⟨e, he, h1, h2⟩ | h
      · exact ⟨e, he, h1, by omega⟩
      · rcases List.mem_cons.mp h with h | h
        · exfalso
          have hd0 : (0 : Nat) = d := congrArg Prod.fst h
          omega
        · exfalso
          have := (hbound _ h).1
          simp at this
          omega
    | succ m ih =>
      intro hm t ht
      obtain ⟨u, hu, htu⟩ := reachN_succ_inv ht
      obtain ⟨e, he, h1, h2⟩ := ih (by omega) u hu
      have hd1 : e.2 + 1 ≤ m + 1 := by omega
      rcases inv.vnbr e he t (by rw [h1]; exact htu) with
        ⟨e', he', h1', h2'⟩ | ⟨d', hd', hd2⟩
      · exact ⟨e', he', h1', by omega⟩
      · exfalso
        rcases List.mem_cons.mp hd' with h | h
        · have hdd : d' = d := congrArg Prod.fst h
          omega
        · have := (hbound _ h).1
          simp at this
          omega
  intro m t ht hpt
  by_contra hlt
  push_neg at hlt
  obtain ⟨e, he, h1, _⟩ := aux m hlt t ht
  have := inv.vfalse e he
  rw [h1, hpt] at this
  exact Bool.noConfusion this

/-- The instrumented BFS run preserves its invariant and yields: on break, a
match popped at globally minimal edge depth; on exhaustion, a visited set that
covers every reachable state and contains no match. -/
theorem bfs_depth_run {S : Type} [DecidableEq S] (nbr : S → List S) (p : S → Bool)
    (start : S) :
    ∀ (n : Nat) (q : List (Nat × S)) (vis : List (S × Nat)) (k : Nat),
      BfsInv nbr p start k q vis →
      ∀ r, bfs_depth nbr p n q vis = some r →
      (∀ d s, r = .brk (d, s) →
        p s = true ∧ ReachN nbr start d s ∧
          ∀ m t, ReachN nbr start m t → p t = true → d ≤ m) ∧
      (∀ vf, r = .cont vf →
        (∀ m t, ReachN nbr start m t → ∃ e ∈ vf, e.1 = t ∧ e.2 ≤ m) ∧
          ∀ e ∈ vf, p e.1 = false)
  | 0, _, _, _, _, _ => by simp [bfs_depth]
  | n + 1, [], vis, k, inv, r => by
    simp only [bfs_depth, Option.some.injEq]
    intro h
    subst h
    constructor
    · intro d s h
      exact CFlow.noConfusion h
    · intro vf h
      cases h
      exact ⟨bfsInv_closed inv, inv.vfalse⟩
  | n + 1, (d0, s0) :: q', vis, k, inv, r => by
    obtain ⟨hkd, htl, hbound, happ⟩ := twoLevelQ_cons_norm inv.tl
    simp only [bfs_depth]
    by_cases hv : s0 ∈ vis.map Prod.fst
    · rw [if_pos hv]
      obtain ⟨ev, hev, hev1⟩ := List.mem_map.mp hv
      have inv' : BfsInv nbr p start d0 q' vis :=
        { tl := htl
          vdep := fun e he => le_trans (inv.vdep e he) hkd
          qreach := fun e he => inv.qreach e (List.mem_cons_of_mem _ he)
          vnbr := by
            intro e he t ht
            rcases inv.vnbr e he t ht with w | ⟨d', hd', hle⟩
            · exact Or.inl w
            · rcases List.mem_cons.mp hd' with hh | hh
              · refine Or.inl ⟨ev, hev, ?_, ?_⟩
                · rw [hev1]
                  exact (congrArg Prod.snd hh).symm
                · have h1 : d' = d0 := congrArg Prod.fst hh
                  have h2 := inv.vdep ev hev
                  omega
              · exact Or.inr ⟨d', hh, hle⟩
          vstart := by
            rcases inv.vstart with w | h
            · exact Or.inl w
            · rcases List.mem_cons.mp h with hh | hh
              · refine Or.inl ⟨ev, hev, ?_, ?_⟩
                · rw [hev1]
                  exact (congrArg Prod.snd hh).symm
                · have h1 : (0 : Nat) = d0 := congrArg Prod.fst hh
                  have h2 := inv.vdep ev hev
                  omega
              · exact Or.inr hh
          vfalse := inv.vfalse }
      exact bfs_depth_run nbr p start n q' vis d0 inv' r
    · rw [if_neg hv]
      by_cases hps : p s0 = true
      · rw [if_pos hps]
        simp only [Option.some.injEq]
        intro h
        subst h
        constructor
        · intro d s h
          rw [CFlow.brk.injEq, Prod.mk.injEq] at h
          obtain ⟨hd, hs⟩ := h
          subst hd hs
          exact ⟨hps, inv.qreach (d0, s0) (List.mem_cons_self _ _),
            bfsInv_break_min inv⟩
        · intro vf h
          exact CFlow.noConfusion h
      · rw [if_neg hps]
        have inv' : BfsInv nbr p start d0
            (q' ++ (nbr s0).map fun t => (d0 + 1, t)) ((s0, d0) :: vis) :=
          { tl := by
              refine happ _ ?_
              intro e he
              obtain ⟨t, ht, rfl⟩ := List.mem_map.mp he
              rfl
            vdep := by
              intro e he
              rcases List.mem_cons.mp he with hh | hh
              · rw [hh]
              · exact le_trans (inv.vdep e hh) hkd
            qreach := by
              intro e he
              rcases List.mem_append.mp he with hh | hh
              · exact inv.qreach e (List.mem_cons_of_mem _ hh)
              · obtain ⟨t, ht, rfl⟩ := List.mem_map.mp hh
                exact ReachN.step
                  (inv.qreach (d0, s0) (List.mem_cons_self _ _)) ht
            vnbr := by
              intro e he t ht
              rcases List.mem_cons.mp he with hh | hh
              · subst hh
                refine Or.inr ⟨d0 + 1, ?_, le_refl _⟩
                exact List.mem_append_right _ (List.mem_map.mpr ⟨t, ht, rfl⟩)
              · rcases inv.vnbr e hh t ht with ⟨e', he', h1, h2⟩ | ⟨d', hd', hle⟩
                · exact Or.inl ⟨e', List.mem_cons_of_mem _ he', h1, h2⟩
                · rcases List.mem_cons.mp hd' with hq | hq
                  · refine Or.inl ⟨(s0, d0), List.mem_cons_self _ _, ?_, ?_⟩
                    · exact (congrArg Prod.snd hq).symm
                    · have h1 : d' = d0 := congrArg Prod.fst hq
                      omega
                  · exact Or.inr ⟨d', List.mem_append_left _ hq, hle⟩
            vstart := by
              rcases inv.vstart with ⟨e, he, h1, h2⟩ | h
              · exact Or.inl ⟨e, List.mem_cons_of_mem _ he, h1, h2⟩
              · rcases List.mem_cons.mp h with hh | hh
                · refine Or.inl ⟨(s0, d0), List.mem_cons_self _ _, ?_, ?_⟩
                  · exact (congrArg Prod.snd hh).symm
                  · exact (congrArg Prod.fst hh).symm
                · exact Or.inr (List.mem_append_left _ hh)
            vfalse := by
              intro e he
              rcases List.mem_cons.mp he with hh | hh
              · rw [hh]
                exact Bool.not_eq_true _ |>.mp hps
              · exact inv.vfalse e hh }
        exact bfs_depth_run nbr p start n _ _ d0 inv' r

/-- Any configuration whose measure is below the fuel completes (the fueled
instrumented BFS returns a value). -/
theorem bfs_depth_total {S : Type} [DecidableEq S] [Fintype S] (nbr : S → List S)
    (p : S → Bool) (B : Nat) (hB : ∀ s, (nbr s).length ≤ B) :
    ∀ (n : Nat) (q : List (Nat × S)) (vis : List (S × Nat)),
      (vis.map Prod.fst).Nodup →
      q.length + (Fintype.card S - vis.length) * (B + 1) < n →
      ∃ r, bfs_depth nbr p n q vis = some r
  | 0, q, vis, _, hm => absurd hm (by omega)
  | n + 1, [], vis, _, _ => ⟨.cont vis, rfl⟩
  | n + 1, (d0, s0) :: q', vis, hnd, hm => by
    simp only [bfs_depth]
    by_cases hv : s0 ∈ vis.map Prod.fst
    · rw [if_pos hv]
      apply bfs_depth_total nbr p B hB n q' vis hnd
      simp only [List.length_cons] at hm
      generalize (Fintype.card S - vis.length) * (B + 1) = P at hm ⊢
      omega
    · rw [if_neg hv]
      by_cases hps : p s0 = true
      · rw [if_pos hps]
        exact ⟨_, rfl⟩
      · rw [if_neg hps]
        have hnd2 : (((s0, d0) :: vis).map Prod.fst).Nodup := by
          simp only [List.map_cons]
          exact List.nodup_cons.mpr ⟨hv, hnd⟩
        apply bfs_depth_total nbr p B hB n _ _ hnd2
        have hdeg := hB s0
        have hlen : vis.length + 1 ≤ Fintype.card S := by
          have hcard := List.Nodup.length_le_card
            (List.nodup_cons.mpr ⟨hv, hnd⟩ :
              (s0 :: vis.map Prod.fst).Nodup)
          simpa using hcard
        simp only [List.length_cons, List.length_append, List.length_map] at hm ⊢
        have hsplit : (Fintype.card S - vis.length) * (B + 1) =
            (Fintype.card S - (vis.length + 1)) * (B + 1) + (B + 1) := by
          have h2 : Fintype.card S - vis.length =
              (Fintype.card S - (vis.length + 1)) + 1 := by omega
          rw [h2, Nat.succ_mul]
        rw [hsplit] at hm
        generalize (Fintype.card S - (vis.length + 1)) * (B + 1) = P at hm ⊢
        omega

/-- A break of the instrumented depth run transfers to the plain BFS engine run
on any frontier with the same states in the same order: the plain run breaks at
the same state. -/
theorem bfs_depth_to_plain {A S : Type} [DecidableEq S] (nbr : S → List S)
    (p : S → Bool) (acc_fn : A → S → A) :
    ∀ (n : Nat) (Qi : List (Nat × S)) (Qp : List (A × S)) (Vi : List (S × Nat))
      (d : Nat) (s : S),
      Qp.map Prod.snd = Qi.map Prod.snd →
      bfs_depth nbr p n Qi Vi = some (.brk (d, s)) →
      ∃ a F' V', try_bfs_full (search_compute nbr (fun _ t => p t) acc_fn) n Qp
        (Vi.map Prod.fst) = some (.brk (a, s, F', V'))
  | 0, _, _, _, _, _ => by simp [bfs_depth]
  | n + 1, [], Qp, Vi, d, s => by
    intro hmap h
    simp [bfs_depth] at h
  | n + 1, (d0, s0) :: qi, Qp, Vi, d, s => by
    intro hmap h
    cases Qp with
    | nil => simp at hmap
    | cons e0 qp =>
      obtain ⟨a0, s0p⟩ := e0
      simp only [List.map_cons, List.cons.injEq] at hmap
      obtain ⟨hs0, hmap'⟩ := hmap
      have hs0' := hs0.symm
      subst hs0'
      simp only [bfs_depth] at h
      by_cases hv : s0 ∈ Vi.map Prod.fst
      · rw [if_pos hv] at h
        obtain ⟨a, F', V', hres⟩ := bfs_depth_to_plain nbr p acc_fn n qi qp Vi
          d s hmap' h
        refine ⟨a, F', V', ?_⟩
        simp only [try_bfs_full]
        rw [if_pos hv]
        exact hres
      · rw [if_neg hv] at h
        by_cases hps : p s0 = true
        · rw [if_pos hps] at h
          simp only [Option.some.injEq, CFlow.brk.injEq, Prod.mk.injEq] at h
          obtain ⟨hd, hs⟩ := h
          subst hs
          refine ⟨acc_fn a0 s0, qp, Vi.map Prod.fst, ?_⟩
          simp only [try_bfs_full]
          rw [if_neg hv]
          have hfb : search_compute nbr (fun _ t => p t) acc_fn a0 s0 =
              .brk (acc_fn a0 s0) := by
            simp [search_compute, hps]
          rw [hfb]
        · rw [if_neg hps] at h
          have hmap2 :
              (qp ++ (nbr s0).map fun t => (acc_fn a0 s0, t)).map Prod.snd =
                (qi ++ (nbr s0).map fun t => (d0 + 1, t)).map Prod.snd := by
            simp [hmap']
          obtain ⟨a, F', V', hres⟩ := bfs_depth_to_plain nbr p acc_fn n _ _
            ((s0, d0) :: Vi) d s hmap2 h
          refine ⟨a, F', V', ?_⟩
          simp only [try_bfs_full]
          rw [if_neg hv]
          have hfc : search_compute nbr (fun _ t => p t) acc_fn a0 s0 =
              .cont ((nbr s0).map fun t => (acc_fn a0 s0, t)) := by
            simp [search_compute, hps]
          rw [hfc]
          simpa using hres

/-- Claim C1 as stated is false on the code: on the 2-cycle 0 → 1 → 0 with the
step-count accumulator (seeded with -1 so the start expands at step count 0) and
`end_state_fn` true exactly when the step count is at least 1 and the state is 0,
both `dfs` and `bfs` complete and return `none`, not `some (2, 0)`: state 0 is
inserted into the visited set when its first expansion completes, before the
entry re-entering 0 is popped, so that entry is discarded. -/
theorem claim_C1_counterexample :
    dfs 10 0 cyc2_neighbor step_count_end (-1) step_count_acc = some none ∧
    bfs 10 0 cyc2_neighbor step_count_end (-1) step_count_acc = some none ∧
    some (none : Option (Int × Nat)) ≠ some (some (2, 0)) :=
  ⟨by decide, by decide, by decide⟩

/-- Claim C1 amended: on the 2-cycle 0 → 1 → 0 with the step-count accumulator
and `end_state_fn` "step count ≥ 1 and state = 0", both `dfs` and `bfs` exhaust
the frontier and return `none` (for every fuel large enough for the run to
complete): 0 does re-enter the frontier, but it was marked visited when its
first expansion completed, so the re-entered entry is discarded at pop time. -/
theorem claim_C1 :
    ∀ n, 6 ≤ n →
      dfs n 0 cyc2_neighbor step_count_end (-1) step_count_acc = some none ∧
      bfs n 0 cyc2_neighbor step_count_end (-1) step_count_acc = some none := by
  intro n hn
  have hd : try_dfs_full (search_compute cyc2_neighbor step_count_end step_count_acc)
      6 [((-1 : Int), (0 : Nat))] [] = some (.cont [1, 0]) := rfl
  have hb : try_bfs_full (search_compute cyc2_neighbor step_count_end step_count_acc)
      6 [((-1 : Int), (0 : Nat))] [] = some (.cont [1, 0]) := rfl
  constructor
  · unfold dfs try_dfs
    rw [try_dfs_full_mono _ 6 n _ _ _ hn hd]
    rfl
  · unfold bfs try_bfs
    rw [try_bfs_full_mono _ 6 n _ _ _ hn hb]
    rfl

/-- Witness for the amended claim C1 at fuel 10. -/
theorem claim_C1_witness :
    6 ≤ 10 ∧
      (dfs 10 0 cyc2_neighbor step_count_end (-1) step_count_acc = some none ∧
        bfs 10 0 cyc2_neighbor step_count_end (-1) step_count_acc = some none) :=
  ⟨by decide, claim_C1 10 (by decide)⟩

/-- Claim C2: within a single call of each traversal engine (covering
`dfs`/`bfs`/`dijkstra` and the `*_full` variants through arbitrary initial
frontiers and visited sets), the list of states at which the caller-supplied
computation (for Dijkstra: `acc_fn`/`end_state_fn`/`neighbor_fn`) is invoked has
no duplicates and avoids the initial visited set; the traced runs recording
those invocations return exactly what the plain engines return. -/
theorem claim_C2 {A S R W : Type} [DecidableEq S] [LinearOrder W]
    (f : A → S → CFlow R (List (A × S)))
    (neighbor_fn : S → W → List (S × W)) (end_state_fn : A → S → W → Bool)
    (acc_fn : A → S → W → A) (n : Nat) (frontier : List (A × S))
    (heap : List (StateWithWeight A S W)) (visited : List S) :
    (((try_dfs_full_tr f n frontier visited).2.2.map Prod.snd).Nodup ∧
      ∀ s ∈ (try_dfs_full_tr f n frontier visited).2.2.map Prod.snd, s ∉ visited) ∧
    (((try_bfs_full_tr f n frontier visited).2.2.map Prod.snd).Nodup ∧
      ∀ s ∈ (try_bfs_full_tr f n frontier visited).2.2.map Prod.snd, s ∉ visited) ∧
    (((dijkstra_full_tr neighbor_fn end_state_fn acc_fn n heap visited).2.2.map
        fun e => e.2.1).Nodup ∧
      ∀ s ∈ (dijkstra_full_tr neighbor_fn end_state_fn acc_fn n heap
        visited).2.2.map fun e => e.2.1, s ∉ visited) ∧
    (try_dfs_full_tr f n frontier visited).1 = try_dfs_full f n frontier visited ∧
    (try_bfs_full_tr f n frontier visited).1 = try_bfs_full f n frontier visited ∧
    (dijkstra_full_tr neighbor_fn end_state_fn acc_fn n heap visited).1 =
      dijkstra_full neighbor_fn end_state_fn acc_fn n heap visited :=
  ⟨try_dfs_full_tr_calls_nodup f n frontier visited,
    try_bfs_full_tr_calls_nodup f n frontier visited,
    dijkstra_full_tr_calls_nodup neighbor_fn end_state_fn acc_fn n heap visited,
    try_dfs_full_tr_fst f n frontier visited,
    try_bfs_full_tr_fst f n frontier visited,
    dijkstra_full_tr_fst neighbor_fn end_state_fn acc_fn n heap visited⟩

/-- Claim C5 as stated is false on the code: on the graph where 0 lists the
successor 1 twice (termination never fires), the DFS run pops three entries but
invokes the caller computation (which is what calls `acc_fn`) only twice — the
third popped entry has an already-visited state and is discarded before
`acc_fn` could run, because the visited check comes first. -/
theorem claim_C5_counterexample :
    (try_dfs_full_tr (search_compute dup_neighbor never_end keep_acc) 10
        [((), (0 : Nat))] []).2.1 =
      [((), 0, false), ((), 1, false), ((), 1, true)] ∧
    (try_dfs_full_tr (search_compute dup_neighbor never_end keep_acc) 10
        [((), (0 : Nat))] []).2.2 = [((), 0), ((), 1)] ∧
    ¬ (3 : Nat) = 2 :=
  ⟨by decide, by decide, by decide⟩

/-- Claim C5 amended: in `dfs` and `bfs` the caller computation (hence
`acc_fn`) is invoked exactly once per popped entry whose state passes the
visited check as unvisited, in pop order; popped entries whose state is already
visited are discarded without invoking it — the visited check precedes the
`acc_fn` call. -/
theorem claim_C5 {A S R : Type} [DecidableEq S]
    (f : A → S → CFlow R (List (A × S))) (n : Nat) (frontier : List (A × S))
    (visited : List S) :
    (try_dfs_full_tr f n frontier visited).2.2 =
      ((try_dfs_full_tr f n frontier visited).2.1.filter fun e => !e.2.2).map
        (fun e => (e.1, e.2.1)) ∧
    (try_bfs_full_tr f n frontier visited).2.2 =
      ((try_bfs_full_tr f n frontier visited).2.1.filter fun e => !e.2.2).map
        (fun e => (e.1, e.2.1)) :=
  ⟨try_dfs_full_tr_calls_eq_filter f n frontier visited,
    try_bfs_full_tr_calls_eq_filter f n frontier visited⟩

/-- Claim C8: ordering and equality of `StateWithWeight` entries are determined
by the weight field alone — the modelled `cmp` is `compare` on weights, the
modelled `eq` holds iff the weights are equal (even when accumulators and
states differ), and the heap pop returns an entry that no other entry beats by
weight. -/
theorem claim_C8 {A S W : Type} [DecidableEq W] [LinearOrder W] :
    (∀ x y : StateWithWeight A S W,
      StateWithWeight.cmpModel x y = compare x.weight y.weight) ∧
    (∀ x y : StateWithWeight A S W,
      StateWithWeight.eqModel x y = true ↔ x.weight = y.weight) ∧
    (∀ x y : StateWithWeight A S W,
      x.weight = y.weight → StateWithWeight.cmpModel x y = .eq) ∧
    (∀ (l : List (StateWithWeight A S W)) m rest,
      heap_pop_min l = some (m, rest) →
        ∀ e ∈ l, StateWithWeight.cmpModel m e ≠ .gt) ∧
    (StateWithWeight.cmpModel (A := Nat) (S := Nat) ⟨1, 2, 7⟩ ⟨3, 4, (7 : Nat)⟩ =
        .eq ∧
      StateWithWeight.eqModel (A := Nat) (S := Nat) ⟨1, 2, 7⟩ ⟨3, 4, (7 : Nat)⟩ =
        true) := by
  refine ⟨fun x y => rfl, fun x y => ?_, fun x y h => ?_, fun l m rest hp e he => ?_, by decide, by decide⟩
  · simp [StateWithWeight.eqModel]
  · simp [StateWithWeight.cmpModel, h, compare_eq_iff_eq]
  · have hle := heap_pop_min_min hp e he
    simp only [StateWithWeight.cmpModel]
    intro hgt
    exact absurd hle (not_le.mpr (compare_gt_iff_gt.mp hgt))

/-- Witness for claim C8's conditional parts at concrete entries. -/
theorem claim_C8_witness :
    StateWithWeight.cmpModel (A := Nat) (S := Nat) ⟨0, 1, 5⟩ ⟨2, 3, (4 : Nat)⟩ =
        compare (5 : Nat) 4 ∧
      StateWithWeight.cmpModel (A := Nat) (S := Nat) ⟨9, 9, 5⟩ ⟨2, 3, (5 : Nat)⟩ =
        .eq ∧
      ∀ e ∈ ([⟨0, 0, 2⟩, ⟨1, 1, 1⟩] : List (StateWithWeight Nat Nat Nat)),
        StateWithWeight.cmpModel ⟨1, 1, 1⟩ e ≠ .gt :=
  ⟨claim_C8.1 _ _, claim_C8.2.2.1 _ _ rfl,
    fun e he => claim_C8.2.2.2.1 [⟨0, 0, 2⟩, ⟨1, 1, 1⟩] ⟨1, 1, 1⟩ [⟨0, 0, 2⟩]
      (by decide) e he⟩

/-- Claim C9: every traversal entry point is deterministic — two calls of the
same engine with the same fuel, the same start entries in the same order, the
same initial accumulator, and pointwise-equal (deterministic) neighbor,
termination and accumulator functions return identical results. -/
theorem claim_C9 {A S W : Type} [DecidableEq S] [LinearOrder W]
    (n : Nat) (start : S) (start_weight : W) (starts : List (S × W)) (acc_init : A)
    (nbr1 nbr2 : S → List S) (end1 end2 : A → S → Bool) (accf1 accf2 : A → S → A)
    (wnbr1 wnbr2 : S → W → List (S × W)) (wend1 wend2 : A → S → W → Bool)
    (waccf1 waccf2 : A → S → W → A)
    (hn : ∀ s, nbr1 s = nbr2 s) (he : ∀ a s, end1 a s = end2 a s)
    (ha : ∀ a s, accf1 a s = accf2 a s)
    (hwn : ∀ s w, wnbr1 s w = wnbr2 s w)
    (hwe : ∀ a s w, wend1 a s w = wend2 a s w)
    (hwa : ∀ a s w, waccf1 a s w = waccf2 a s w) :
    dfs n start nbr1 end1 acc_init accf1 = dfs n start nbr2 end2 acc_init accf2 ∧
    bfs n start nbr1 end1 acc_init accf1 = bfs n start nbr2 end2 acc_init accf2 ∧
    dijkstra_starts_iter n starts wnbr1 wend1 acc_init waccf1 =
      dijkstra_starts_iter n starts wnbr2 wend2 acc_init waccf2 ∧
    dijkstra n start start_weight wnbr1 wend1 acc_init waccf1 =
      dijkstra n start start_weight wnbr2 wend2 acc_init waccf2 := by
  have h1 : nbr1 = nbr2 := funext hn
  have h2 : end1 = end2 := funext fun a => funext fun s => he a s
  have h3 : accf1 = accf2 := funext fun a => funext fun s => ha a s
  have h4 : wnbr1 = wnbr2 := funext fun s => funext fun w => hwn s w
  have h5 : wend1 = wend2 :=
    funext fun a => funext fun s => funext fun w => hwe a s w
  have h6 : waccf1 = waccf2 :=
    funext fun a => funext fun s => funext fun w => hwa a s w
  subst h1 h2 h3 h4 h5 h6
  exact ⟨rfl, rfl, rfl, rfl⟩

/-- Witness for claim C9 at a concrete instance. -/
theorem claim_C9_witness :
    dfs 5 0 cyc2_neighbor step_count_end (-1) step_count_acc =
        dfs 5 0 cyc2_neighbor step_count_end (-1) step_count_acc ∧
      bfs 5 0 cyc2_neighbor step_count_end (-1) step_count_acc =
        bfs 5 0 cyc2_neighbor step_count_end (-1) step_count_acc ∧
      dijkstra_starts_iter 5 [((0 : Nat), (0 : Nat))] tri_neighbor
          (fun (_ : Int) s _ => decide (s = 2)) (-1) (fun a _ _ => a) =
        dijkstra_starts_iter 5 [((0 : Nat), (0 : Nat))] tri_neighbor
          (fun _ s _ => decide (s = 2)) (-1) (fun a _ _ => a) ∧
      dijkstra 5 (0 : Nat) (0 : Nat) tri_neighbor
          (fun (_ : Int) s _ => decide (s = 2)) (-1) (fun a _ _ => a) =
        dijkstra 5 (0 : Nat) (0 : Nat) tri_neighbor
          (fun _ s _ => decide (s = 2)) (-1) (fun a _ _ => a) :=
  claim_C9 5 0 0 [(0, 0)] (-1) cyc2_neighbor cyc2_neighbor step_count_end
    step_count_end step_count_acc step_count_acc tri_neighbor tri_neighbor
    (fun _ s _ => decide (s = 2)) (fun _ s _ => decide (s = 2))
    (fun a _ _ => a) (fun a _ _ => a)
    (fun _ => rfl) (fun _ _ => rfl) (fun _ _ => rfl) (fun _ _ => rfl)
    (fun _ _ _ => rfl) (fun _ _ _ => rfl)

theorem dijInv_init {A S W : Type} [LinearOrderedAddCommMonoid W]
    (adj : S → List (S × W)) (p : S → Bool) (starts : List (S × W))
    (acc_init : A) :
    DijInv adj p starts (starts.map fun pr =>
      (⟨acc_init, pr.1, pr.2⟩ : StateWithWeight A S W)) [] where
  hreach := by
    intro e he
    obtain ⟨sw, hsw, rfl⟩ := List.mem_map.mp he
    exact ReachW.seed hsw
  vle := by simp
  vnbr := by simp
  vseed := by
    intro sw hsw
    refine Or.inr ⟨⟨acc_init, sw.1, sw.2⟩, ?_, rfl, le_refl _⟩
    exact List.mem_map.mpr ⟨sw, hsw, rfl⟩
  vfalse := by simp

/-- When the heap has emptied, the visited set covers every reachable
(state, weight) pair at a weight bounded by that cumulative weight. -/
theorem dijInv_closed {A S W : Type} [LinearOrderedAddCommMonoid W]
    {adj : S → List (S × W)} {p : S → Bool} {starts : List (S × W)}
    {vis : List (S × W)}
    (inv : DijInv (A := A) adj p starts [] vis) :
    ∀ t m, ReachW adj starts t m → ∃ v ∈ vis, v.1 = t ∧ v.2 ≤ m := by
  intro t m h
  induction h with
  | seed hsw =>
    rcases inv.vseed _ hsw with ⟨v, hv, h1, h2⟩ | ⟨e, he, _, _⟩
    · exact ⟨v, hv, h1, h2⟩
    · simp at he
  | step hu ht ih =>
    obtain ⟨v, hv, h1, h2⟩ := ih
    rcases inv.vnbr v hv _ (by rw [h1]; exact ht) with
      ⟨v', hv', h1', h2'⟩ | ⟨e, he, _, _⟩
    · exact ⟨v', hv', h1', le_trans h2' (add_le_add_right h2 _)⟩
    · simp at he

/-- Minimality at a break: if the heap minimum `(s0, w0)` is popped unvisited,
no match is reachable with cumulative weight below `w0`. -/
theorem dijInv_break_min {A S W : Type} [LinearOrderedAddCommMonoid W]
    {adj : S → List (S × W)} {p : S → Bool} {starts : List (S × W)}
    {heap rest : List (StateWithWeight A S W)} {vis : List (S × W)}
    {acc0 : A} {s0 : S} {w0 : W}
    (inv : DijInv adj p starts heap vis)
    (hpop : heap_pop_min heap = some (⟨acc0, s0, w0⟩, rest))
    (hpos : ∀ s, ∀ c ∈ adj s, 0 ≤ c.2) :
    ∀ t m, ReachW adj starts t m → p t = true → w0 ≤ m := by
  have hmin : ∀ x ∈ heap, w0 ≤ x.weight := heap_pop_min_min hpop
  have aux : ∀ t m, ReachW adj starts t m → ¬ w0 ≤ m →
      ∃ v ∈ vis, v.1 = t ∧ v.2 ≤ m := by
    intro t m h
    induction h with
    | seed hsw =>
      intro hlt
      rcases inv.vseed _ hsw with ⟨v, hv, h1, h2⟩ | ⟨e, he, _, h2⟩
      · exact ⟨v, hv, h1, h2⟩
      · exact absurd (le_trans (hmin e he) h2) hlt
    | step hu ht ih =>
      intro hlt
      rename_i u w t' c
      have hwc : w ≤ w + c := le_add_of_nonneg_right (hpos u _ ht)
      obtain ⟨v, hv, h1, h2⟩ := ih fun hle => hlt (le_trans hle hwc)
      rcases inv.vnbr v hv _ (by rw [h1]; exact ht) with
        ⟨v', hv', h1', h2'⟩ | ⟨e, he, _, h2'⟩
      · exact ⟨v', hv', h1', le_trans h2' (add_le_add_right h2 _)⟩
      · exact absurd
          (le_trans (hmin e he) (le_trans h2' (add_le_add_right h2 _))) hlt
  intro t m h hpt
  by_contra hlt
  obtain ⟨v, hv, h1, _⟩ := aux t m h hlt
  have hft := inv.vfalse v hv
  rw [h1, hpt] at hft
  exact Bool.noConfusion hft

/-- The instrumented Dijkstra run over adjacency increments preserves its
invariant and yields: on a `Some` return, a match of globally minimal
cumulative weight; on heap exhaustion, a visited set covering every reachable
(state, weight) pair and containing no match. -/
theorem dijkstra_wvis_run {A S W : Type} [DecidableEq S]
    [LinearOrderedAddCommMonoid W]
    (adj : S → List (S × W)) (p : S → Bool) (starts : List (S × W))
    (acc_fn : A → S → W → A)
    (hpos : ∀ s, ∀ c ∈ adj s, 0 ≤ c.2) :
    ∀ (n : Nat) (heap : List (StateWithWeight A S W)) (vis : List (S × W)),
      DijInv adj p starts heap vis →
      ∀ r, dijkstra_wvis (fun s w => (adj s).map fun e => (e.1, w + e.2))
          (fun _ t _ => p t) acc_fn n heap vis = some r →
      (∀ a2 s w, r.1 = some (a2, s, w) →
        p s = true ∧ ReachW adj starts s w ∧
          ∀ t m, ReachW adj starts t m → p t = true → w ≤ m) ∧
      (r.1 = none →
        (∀ t m, ReachW adj starts t m → ∃ v ∈ r.2.2, v.1 = t ∧ v.2 ≤ m) ∧
          ∀ v ∈ r.2.2, p v.1 = false)
  | 0, _, _, _, _ => by simp [dijkstra_wvis]
  | n + 1, heap, vis, inv, r => by
    simp only [dijkstra_wvis]
    cases hpop : heap_pop_min heap with
    | none =>
      simp only [Option.some.injEq]
      intro h
      subst h
      have hheap : heap = [] := (heap_pop_min_eq_none_iff heap).mp hpop
      subst hheap
      refine ⟨fun a2 s w h => Option.noConfusion h, fun _ => ?_⟩
      exact ⟨dijInv_closed inv, inv.vfalse⟩
    | some mr =>
      obtain ⟨sww, rest⟩ := mr
      obtain ⟨acc0, s0, w0⟩ := sww
      have hpin : (⟨acc0, s0, w0⟩ : StateWithWeight A S W) ∈ heap :=
        (heap_pop_min_perm hpop).mem_iff.mpr (List.mem_cons_self _ _)
      have hsub : ∀ x ∈ rest, x ∈ heap := fun x hx =>
        (heap_pop_min_perm hpop).mem_iff.mpr (List.mem_cons_of_mem _ hx)
      have hmin : ∀ x ∈ heap, w0 ≤ x.weight := heap_pop_min_min hpop
      simp only [StateWithWeight.into]
      by_cases hv : s0 ∈ vis.map Prod.fst
      · rw [if_pos hv]
        obtain ⟨vv, hvv, hvv1⟩ := List.mem_map.mp hv
        have inv' : DijInv adj p starts rest vis :=
          { hreach := fun e he => inv.hreach e (hsub e he)
            vle := fun v hvm e he => inv.vle v hvm e (hsub e he)
            vnbr := by
              intro v hvm t ht
              rcases inv.vnbr v hvm t ht with w | ⟨e, he, h1, h2⟩
              · exact Or.inl w
              · rcases List.mem_cons.mp
                    ((heap_pop_min_perm hpop).mem_iff.mp he) with hh | hh
                · refine Or.inl ⟨vv, hvv, ?_, ?_⟩
                  · rw [hvv1, ← h1, hh]
                  · have hle := inv.vle vv hvv e he
                    exact le_trans hle h2
                · exact Or.inr ⟨e, hh, h1, h2⟩
            vseed := by
              intro sw hsw
              rcases inv.vseed sw hsw with w | ⟨e, he, h1, h2⟩
              · exact Or.inl w
              · rcases List.mem_cons.mp
                    ((heap_pop_min_perm hpop).mem_iff.mp he) with hh | hh
                · refine Or.inl ⟨vv, hvv, ?_, ?_⟩
                  · rw [hvv1, ← h1, hh]
                  · have hle := inv.vle vv hvv e he
                    exact le_trans hle h2
                · exact Or.inr ⟨e, hh, h1, h2⟩
            vfalse := inv.vfalse }
        exact dijkstra_wvis_run adj p starts acc_fn hpos n rest vis inv' r
      · rw [if_neg hv]
        by_cases hps : p s0 = true
        · rw [if_pos hps]
          simp only [Option.some.injEq]
          intro h
          subst h
          refine ⟨?_, fun h => Option.noConfusion h⟩
          intro a2 s w h
          simp only [Option.some.injEq, Prod.mk.injEq] at h
          obtain ⟨ha, hs, hw⟩ := h
          subst hs hw
          exact ⟨hps, inv.hreach _ hpin, dijInv_break_min inv hpop hpos⟩
        · rw [if_neg hps]
          have inv' : DijInv adj p starts
              (rest ++ ((adj s0).map fun e => (e.1, w0 + e.2)).map
                fun pr => (⟨acc_fn acc0 s0 w0, pr.1, pr.2⟩ : StateWithWeight A S W))
              ((s0, w0) :: vis) :=
            { hreach := by
                intro e he
                rcases List.mem_append.mp he with hh | hh
                · exact inv.hreach e (hsub e hh)
                · obtain ⟨pr, hpr, rfl⟩ := List.mem_map.mp hh
                  obtain ⟨c, hc, rfl⟩ := List.mem_map.mp hpr
                  exact ReachW.step (inv.hreach _ hpin) hc
              vle := by
                intro v hvm e he
                rcases List.mem_cons.mp hvm with hh | hh
                · subst hh
                  rcases List.mem_append.mp he with hh | hh
                  · exact hmin e (hsub e hh)
                  · obtain ⟨pr, hpr, rfl⟩ := List.mem_map.mp hh
                    obtain ⟨c, hc, rfl⟩ := List.mem_map.mp hpr
                    exact le_add_of_nonneg_right (hpos s0 _ hc)
                · rcases List.mem_append.mp he with hh2 | hh2
                  · exact inv.vle v hh e (hsub e hh2)
                  · obtain ⟨pr, hpr, rfl⟩ := List.mem_map.mp hh2
                    obtain ⟨c, hc, rfl⟩ := List.mem_map.mp hpr
                    have h1 := inv.vle v hh _ hpin
                    exact le_trans h1 (le_add_of_nonneg_right (hpos s0 _ hc))
              vnbr := by
                intro v hvm t ht
                rcases List.mem_cons.mp hvm with hh | hh
                · subst hh
                  refine Or.inr ⟨⟨acc_fn acc0 s0 w0, t.1, w0 + t.2⟩, ?_, rfl, le_refl _⟩
                  refine List.mem_append_right _ ?_
                  exact List.mem_map.mpr ⟨(t.1, w0 + t.2),
                    List.mem_map.mpr ⟨t, ht, rfl⟩, rfl⟩
                · rcases inv.vnbr v hh t ht with ⟨v', hv', h1, h2⟩ | ⟨e, he, h1, h2⟩
                  · exact Or.inl ⟨v', List.mem_cons_of_mem _ hv', h1, h2⟩
                  · rcases List.mem_cons.mp
                        ((heap_pop_min_perm hpop).mem_iff.mp he) with hh2 | hh2
                    · refine Or.inl ⟨(s0, w0), List.mem_cons_self _ _, ?_, ?_⟩
                      · rw [← h1, hh2]
                      · rw [hh2] at h2
                        exact h2
                    · exact Or.inr ⟨e, List.mem_append_left _ hh2, h1, h2⟩
              vseed := by
                intro sw hsw
                rcases inv.vseed sw hsw with ⟨v', hv', h1, h2⟩ | ⟨e, he, h1, h2⟩
                · exact Or.inl ⟨v', List.mem_cons_of_mem _ hv', h1, h2⟩
                · rcases List.mem_cons.mp
                      ((heap_pop_min_perm hpop).mem_iff.mp he) with hh2 | hh2
                  · refine Or.inl ⟨(s0, w0), List.mem_cons_self _ _, ?_, ?_⟩
                    · rw [← h1, hh2]
                    · rw [hh2] at h2
                      exact h2
                  · exact Or.inr ⟨e, List.mem_append_left _ hh2, h1, h2⟩
              vfalse := by
                intro v hvm
                rcases List.mem_cons.mp hvm with hh | hh
                · rw [hh]
                  exact Bool.not_eq_true _ |>.mp hps
                · exact inv.vfalse v hh }
          exact dijkstra_wvis_run adj p starts acc_fn hpos n _ _ inv' r

/-- Any configuration whose measure is below the fuel completes (the fueled
instrumented Dijkstra returns a value). -/
theorem dijkstra_wvis_total {A S W : Type} [DecidableEq S] [LinearOrder W]
    [Fintype S] (neighbor_fn : S → W → List (S × W))
    (end_state_fn : A → S → W → Bool) (acc_fn : A → S → W → A) (B : Nat)
    (hB : ∀ s w, (neighbor_fn s w).length ≤ B) :
    ∀ (n : Nat) (heap : List (StateWithWeight A S W)) (vis : List (S × W)),
      (vis.map Prod.fst).Nodup →
      heap.length + (Fintype.card S - vis.length) * (B + 1) < n →
      ∃ r, dijkstra_wvis neighbor_fn end_state_fn acc_fn n heap vis = some r
  | 0, _, _, _, hm => absurd hm (by omega)
  | n + 1, heap, vis, hnd, hm => by
    simp only [dijkstra_wvis]
    cases hpop : heap_pop_min heap with
    | none => exact ⟨_, rfl⟩
    | some mr =>
      obtain ⟨sww, rest⟩ := mr
      obtain ⟨acc0, s0, w0⟩ := sww
      have hlen : rest.length + 1 = heap.length := by
        have hpl := (heap_pop_min_perm hpop).length_eq
        simpa using hpl.symm
      simp only [StateWithWeight.into]
      by_cases hv : s0 ∈ vis.map Prod.fst
      · rw [if_pos hv]
        apply dijkstra_wvis_total neighbor_fn end_state_fn acc_fn B hB n rest
          vis hnd
        generalize (Fintype.card S - vis.length) * (B + 1) = P at hm ⊢
        omega
      · rw [if_neg hv]
        by_cases hps : end_state_fn (acc_fn acc0 s0 w0) s0 w0 = true
        · rw [if_pos hps]
          exact ⟨_, rfl⟩
        · rw [if_neg hps]
          have hnd2 : (((s0, w0) :: vis).map Prod.fst).Nodup := by
            simp only [List.map_cons]
            exact List.nodup_cons.mpr ⟨hv, hnd⟩
          apply dijkstra_wvis_total neighbor_fn end_state_fn acc_fn B hB n _ _
            hnd2
          have hdeg := hB s0 w0
          have hlen2 : vis.length + 1 ≤ Fintype.card S := by
            have hcard := List.Nodup.length_le_card
              (List.nodup_cons.mpr ⟨hv, hnd⟩ :
                (s0 :: vis.map Prod.fst).Nodup)
            simpa using hcard
          simp only [List.length_cons, List.length_append, List.length_map]
          have hsplit : (Fintype.card S - vis.length) * (B + 1) =
              (Fintype.card S - (vis.length + 1)) * (B + 1) + (B + 1) := by
            have h2 : Fintype.card S - vis.length =
                (Fintype.card S - (vis.length + 1)) + 1 := by omega
            rw [h2, Nat.succ_mul]
          rw [hsplit] at hm
          generalize (Fintype.card S - (vis.length + 1)) * (B + 1) = P at hm ⊢
          omega

/-- The instrumented Dijkstra run projects onto the plain `dijkstra_full` run:
forgetting the recorded expansion weights gives exactly the plain engine's
result, residual heap and visited set. -/
theorem dijkstra_wvis_to_full {A S W : Type} [DecidableEq S] [LinearOrder W]
    (neighbor_fn : S → W → List (S × W)) (end_state_fn : A → S → W → Bool)
    (acc_fn : A → S → W → A) :
    ∀ (n : Nat) (heap : List (StateWithWeight A S W)) (Vi : List (S × W)) r,
      dijkstra_wvis neighbor_fn end_state_fn acc_fn n heap Vi = some r →
      dijkstra_full neighbor_fn end_state_fn acc_fn n heap (Vi.map Prod.fst) =
        some (r.1, r.2.1, r.2.2.map Prod.fst)
  | 0, _, _, _ => by simp [dijkstra_wvis]
  | n + 1, heap, Vi, r => by
    intro h
    simp only [dijkstra_wvis] at h
    simp only [dijkstra_full]
    cases hpop : heap_pop_min heap with
    | none =>
      rw [hpop] at h
      simp only [Option.some.injEq] at h
      subst h
      rfl
    | some mr =>
      obtain ⟨sww, rest⟩ := mr
      obtain ⟨acc0, s0, w0⟩ := sww
      rw [hpop] at h
      simp only [StateWithWeight.into] at h ⊢
      by_cases hv : s0 ∈ Vi.map Prod.fst
      · rw [if_pos hv] at h ⊢
        exact dijkstra_wvis_to_full neighbor_fn end_state_fn acc_fn n rest Vi r h
      · rw [if_neg hv] at h ⊢
        by_cases hps : end_state_fn (acc_fn acc0 s0 w0) s0 w0 = true
        · rw [if_pos hps] at h ⊢
          simp only [Option.some.injEq] at h
          subst h
          rfl
        · rw [if_neg hps] at h ⊢
          have hrec := dijkstra_wvis_to_full neighbor_fn end_state_fn acc_fn n _
            ((s0, w0) :: Vi) r h
          simpa using hrec

/-- Claim C3: on every finite implicit graph given by adjacency lists with
non-negative weight increments, if some reachable state matches the state-only
termination predicate then `dijkstra_starts_iter` (with sufficient fuel, from
any seed list; `dijkstra` is its single-seed wrapper) returns a match whose
cumulative weight is globally minimal among all reachable matches; in
particular, Scenario B on the weight-1/1/5 triangle returns weight 2, never
5. -/
theorem claim_C3 {A S W : Type} [DecidableEq S] [Fintype S]
    [LinearOrderedAddCommMonoid W]
    (starts : List (S × W)) (adj : S → List (S × W)) (p : S → Bool)
    (acc_init : A) (acc_fn : A → S → W → A)
    (hpos : ∀ s, ∀ c ∈ adj s, 0 ≤ c.2)
    (hmatch : ∃ t m, ReachW adj starts t m ∧ p t = true) :
    (∃ n a s w, dijkstra_starts_iter n starts
        (fun s w => (adj s).map fun e => (e.1, w + e.2))
        (fun _ t _ => p t) acc_init acc_fn = some (some (a, s, w)) ∧
      p s = true ∧ ReachW adj starts s w ∧
      ∀ t m, ReachW adj starts t m → p t = true → w ≤ m) ∧
    dijkstra 10 (0 : Nat) (0 : Nat) tri_neighbor tri_end 0 keep_wacc =
      some (some (0, 2, 2)) := by
  refine ⟨?_, rfl⟩
  obtain ⟨B, hB⟩ : ∃ B, ∀ s, (adj s).length ≤ B :=
    ⟨Finset.univ.sup fun t => (adj t).length, fun s =>
      @Finset.le_sup _ _ _ _ Finset.univ (fun t => (adj t).length) s
        (Finset.mem_univ s)⟩
  have hBn : ∀ (s : S) (w : W),
      ((adj s).map fun e => (e.1, w + e.2)).length ≤ B := by
    intro s w
    simpa using hB s
  have hmeas : (starts.map fun pr =>
      (⟨acc_init, pr.1, pr.2⟩ : StateWithWeight A S W)).length +
      (Fintype.card S - ([] : List (S × W)).length) * (B + 1) <
      starts.length + Fintype.card S * (B + 1) + 1 := by
    simp only [List.length_map, List.length_nil, Nat.sub_zero]
    exact Nat.lt_succ_self _
  obtain ⟨r, hr⟩ := dijkstra_wvis_total
    (fun s w => (adj s).map fun e => (e.1, w + e.2)) (fun _ t _ => p t) acc_fn
    B hBn (starts.length + Fintype.card S * (B + 1) + 1)
    (starts.map fun pr => ⟨acc_init, pr.1, pr.2⟩) [] (by simp) hmeas
  have hrun := dijkstra_wvis_run adj p starts acc_fn hpos
    (starts.length + Fintype.card S * (B + 1) + 1) _ []
    (dijInv_init adj p starts acc_init) r hr
  obtain ⟨ropt, rH, rV⟩ := r
  cases ropt with
  | none =>
    exfalso
    obtain ⟨t, m, hmt, hpt⟩ := hmatch
    obtain ⟨hcov, hfalse⟩ := hrun.2 rfl
    obtain ⟨v, hvm, h1, _⟩ := hcov t m hmt
    have hft := hfalse v hvm
    rw [h1, hpt] at hft
    exact Bool.noConfusion hft
  | some asw =>
    obtain ⟨a2, s, w⟩ := asw
    obtain ⟨hps, hreach, hmin⟩ := hrun.1 a2 s w rfl
    have hfull := dijkstra_wvis_to_full
      (fun s w => (adj s).map fun e => (e.1, w + e.2)) (fun _ t _ => p t) acc_fn
      (starts.length + Fintype.card S * (B + 1) + 1) _ [] _ hr
    simp only [List.map_nil] at hfull
    refine ⟨starts.length + Fintype.card S * (B + 1) + 1, a2, s, w, ?_, hps,
      hreach, hmin⟩
    unfold dijkstra_starts_iter
    rw [hfull]
    rfl

/-- Witness for claim C3 on the `Fin 3` triangle with a single seed. -/
theorem claim_C3_witness :
    (∃ n a s w, dijkstra_starts_iter n [((0 : Fin 3), (0 : Nat))]
        (fun s w => (tri3_adj s).map fun e => (e.1, w + e.2))
        (fun _ t _ => decide (t = (2 : Fin 3))) (0 : Nat) keep_wacc =
        some (some (a, s, w)) ∧
      decide (s = (2 : Fin 3)) = true ∧ ReachW tri3_adj [(0, 0)] s w ∧
      ∀ t m, ReachW tri3_adj [(0, 0)] t m → decide (t = (2 : Fin 3)) = true →
        w ≤ m) ∧
    dijkstra 10 (0 : Nat) (0 : Nat) tri_neighbor tri_end 0 keep_wacc =
      some (some (0, 2, 2)) :=
  claim_C3 [(0, 0)] tri3_adj (fun t => decide (t = (2 : Fin 3))) 0 keep_wacc
    (by decide)
    (by
      refine ⟨2, 0 + 1 + 1, ?_, by decide⟩
      have h1 : ReachW tri3_adj [((0 : Fin 3), (0 : Nat))] 0 0 :=
        ReachW.seed (by decide)
      have h2 : ReachW tri3_adj [((0 : Fin 3), (0 : Nat))] 1 (0 + 1) :=
        ReachW.step h1 (by decide)
      exact ReachW.step h2 (by decide))

/-- Claim C4: on every finite implicit graph (finite state type) with a
state-only termination predicate, if some reachable state matches then `bfs`
(run with sufficient fuel) returns a match whose edge-count distance from the
start is minimal among all reachable matches; in particular, Scenario A on the
line graph 0 → 1 → 2 → 3 with the edge-count accumulator returns
`Some (3, 3)`. -/
theorem claim_C4 {S A : Type} [DecidableEq S] [Fintype S] (start : S)
    (neighbor_fn : S → List S) (p : S → Bool) (acc_init : A) (acc_fn : A → S → A)
    (hmatch : ∃ m t, ReachN neighbor_fn start m t ∧ p t = true) :
    (∃ n a s, bfs n start neighbor_fn (fun _ t => p t) acc_init acc_fn =
        some (some (a, s)) ∧ p s = true ∧
      ∃ d, ReachN neighbor_fn start d s ∧
        ∀ m t, ReachN neighbor_fn start m t → p t = true → d ≤ m) ∧
    bfs 12 (0 : Nat) line_neighbor (fun _ t => line_p t) (-1 : Int)
      step_count_acc = some (some (3, 3)) := by
  refine ⟨?_, rfl⟩
  obtain ⟨B, hB⟩ : ∃ B, ∀ s, (neighbor_fn s).length ≤ B :=
    ⟨Finset.univ.sup fun t => (neighbor_fn t).length, fun s =>
      @Finset.le_sup _ _ _ _ Finset.univ (fun t => (neighbor_fn t).length) s
        (Finset.mem_univ s)⟩
  have hmeas : ([(0, start)] : List (Nat × S)).length +
      (Fintype.card S - ([] : List (S × Nat)).length) * (B + 1) <
      2 + Fintype.card S * (B + 1) := by
    simp only [List.length_singleton, List.length_nil, Nat.sub_zero]
    exact Nat.add_lt_add_right (by omega) _
  obtain ⟨r, hr⟩ := bfs_depth_total neighbor_fn p B hB
    (2 + Fintype.card S * (B + 1)) [(0, start)] [] (by simp) hmeas
  have hrun := bfs_depth_run neighbor_fn p start _ _ _ 0
    (bfsInv_init neighbor_fn p start) r hr
  cases r with
  | cont vf =>
    exfalso
    obtain ⟨m, t, hmt, hpt⟩ := hmatch
    obtain ⟨hcov, hfalse⟩ := hrun.2 vf rfl
    obtain ⟨e, he, het, _⟩ := hcov m t hmt
    have hft := hfalse e he
    rw [het, hpt] at hft
    exact Bool.noConfusion hft
  | brk ds =>
    obtain ⟨d, s⟩ := ds
    obtain ⟨hps, hreach, hmin⟩ := hrun.1 d s rfl
    obtain ⟨a, F', V', hplain⟩ := bfs_depth_to_plain neighbor_fn p acc_fn
      (2 + Fintype.card S * (B + 1)) [(0, start)] [(acc_init, start)] [] d s rfl hr
    simp only [List.map_nil] at hplain
    refine ⟨2 + Fintype.card S * (B + 1), a, s, ?_, hps, d, hreach, hmin⟩
    unfold bfs try_bfs
    rw [hplain]
    rfl

/-- Witness for claim C4 on the `Fin 4` line graph. -/
theorem claim_C4_witness :
    (∃ n a s, bfs n (0 : Fin 4) line4_neighbor (fun _ t => line4_p t) (-1 : Int)
        (fun a _ => a + 1) = some (some (a, s)) ∧ line4_p s = true ∧
      ∃ d, ReachN line4_neighbor 0 d s ∧
        ∀ m t, ReachN line4_neighbor 0 m t → line4_p t = true → d ≤ m) ∧
    bfs 12 (0 : Nat) line_neighbor (fun _ t => line_p t) (-1 : Int)
      step_count_acc = some (some (3, 3)) :=
  claim_C4 0 line4_neighbor line4_p (-1) (fun a _ => a + 1)
    (by
      refine ⟨3, 3, ?_, by decide⟩
      have h1 : ReachN line4_neighbor 0 1 1 := ReachN.step ReachN.zero (by decide)
      have h2 : ReachN line4_neighbor 0 2 2 := ReachN.step h1 (by decide)
      exact ReachN.step h2 (by decide))

/-- `dfs` returns `None` exactly when the run exhausted the frontier with the
termination predicate false at every invocation. -/
theorem dfs_none_iff {A S : Type} [DecidableEq S] (neighbor_fn : S → List S)
    (end_state_fn : A → S → Bool) (acc_fn : A → S → A) (n : Nat) (start : S)
    (acc_init : A) (res : Option (A × S))
    (h : dfs n start neighbor_fn end_state_fn acc_init acc_fn = some res) :
    res = none ↔
      ∀ e ∈ (try_dfs_full_tr (search_compute neighbor_fn end_state_fn acc_fn)
          n [(acc_init, start)] []).2.2,
        end_state_fn (acc_fn e.1 e.2) e.2 = false := by
  unfold dfs try_dfs at h
  cases hplain : try_dfs_full (search_compute neighbor_fn end_state_fn acc_fn) n
      [(acc_init, start)] [] with
  | none => rw [hplain] at h; simp at h
  | some r =>
    rw [hplain] at h
    simp only [Option.map_some', Option.some.injEq] at h
    have htr := try_dfs_full_tr_fst
      (search_compute neighbor_fn end_state_fn acc_fn) n [(acc_init, start)] []
    cases r with
    | cont v =>
      subst h
      simp only [true_iff]
      intro e he
      by_cases hend : end_state_fn (acc_fn e.1 e.2) e.2 = true
      · have hbrk : search_compute neighbor_fn end_state_fn acc_fn e.1 e.2 =
            .brk (acc_fn e.1 e.2) :=
          (search_compute_brk_iff _ _ _ _ _ _).mpr ⟨hend, rfl⟩
        exact absurd hbrk
          (try_dfs_full_tr_cont_no_brk _ n [(acc_init, start)] [] v
            (htr.trans hplain) e he _)
      · exact Bool.not_eq_true _ |>.mp hend
    | brk bb =>
      obtain ⟨b, s, F', V'⟩ := bb
      subst h
      simp only [Option.some_ne_none, false_iff, not_forall]
      obtain ⟨a, ha, hbrk⟩ := try_dfs_full_tr_brk_call _ n [(acc_init, start)] []
        b s F' V' (htr.trans hplain)
      obtain ⟨hend, _⟩ := (search_compute_brk_iff _ _ _ _ _ _).mp hbrk
      exact ⟨(a, s), ha, by simp [hend]⟩

/-- `bfs` returns `None` exactly when the run exhausted the frontier with the
termination predicate false at every invocation. -/
theorem bfs_none_iff {A S : Type} [DecidableEq S] (neighbor_fn : S → List S)
    (end_state_fn : A → S → Bool) (acc_fn : A → S → A) (n : Nat) (start : S)
    (acc_init : A) (res : Option (A × S))
    (h : bfs n start neighbor_fn end_state_fn acc_init acc_fn = some res) :
    res = none ↔
      ∀ e ∈ (try_bfs_full_tr (search_compute neighbor_fn end_state_fn acc_fn)
          n [(acc_init, start)] []).2.2,
        end_state_fn (acc_fn e.1 e.2) e.2 = false := by
  unfold bfs try_bfs at h
  cases hplain : try_bfs_full (search_compute neighbor_fn end_state_fn acc_fn) n
      [(acc_init, start)] [] with
  | none => rw [hplain] at h; simp at h
  | some r =>
    rw [hplain] at h
    simp only [Option.map_some', Option.some.injEq] at h
    have htr := try_bfs_full_tr_fst
      (search_compute neighbor_fn end_state_fn acc_fn) n [(acc_init, start)] []
    cases r with
    | cont v =>
      subst h
      simp only [true_iff]
      intro e he
      by_cases hend : end_state_fn (acc_fn e.1 e.2) e.2 = true
      · have hbrk : search_compute neighbor_fn end_state_fn acc_fn e.1 e.2 =
            .brk (acc_fn e.1 e.2) :=
          (search_compute_brk_iff _ _ _ _ _ _).mpr ⟨hend, rfl⟩
        exact absurd hbrk
          (try_bfs_full_tr_cont_no_brk _ n [(acc_init, start)] [] v
            (htr.trans hplain) e he _)
      · exact Bool.not_eq_true _ |>.mp hend
    | brk bb =>
      obtain ⟨b, s, F', V'⟩ := bb
      subst h
      simp only [Option.some_ne_none, false_iff, not_forall]
      obtain ⟨a, ha, hbrk⟩ := try_bfs_full_tr_brk_call _ n [(acc_init, start)] []
        b s F' V' (htr.trans hplain)
      obtain ⟨hend, _⟩ := (search_compute_brk_iff _ _ _ _ _ _).mp hbrk
      exact ⟨(a, s), ha, by simp [hend]⟩

/-- `dijkstra_starts_iter` returns `None` exactly when the run exhausted the
heap with the termination predicate false at every invocation. -/
theorem dijkstra_starts_iter_none_iff {A S W : Type} [DecidableEq S]
    [LinearOrder W] (neighbor_fn : S → W → List (S × W))
    (end_state_fn : A → S → W → Bool) (acc_fn : A → S → W → A) (n : Nat)
    (starts : List (S × W)) (acc_init : A) (res : Option (A × S × W))
    (h : dijkstra_starts_iter n starts neighbor_fn end_state_fn acc_init acc_fn =
      some res) :
    res = none ↔
      ∀ e ∈ (dijkstra_full_tr neighbor_fn end_state_fn acc_fn n
          (starts.map fun p => ⟨acc_init, p.1, p.2⟩) []).2.2,
        end_state_fn (acc_fn e.1 e.2.1 e.2.2) e.2.1 e.2.2 = false := by
  unfold dijkstra_starts_iter at h
  cases hplain : dijkstra_full neighbor_fn end_state_fn acc_fn n
      (starts.map fun p => ⟨acc_init, p.1, p.2⟩) [] with
  | none => rw [hplain] at h; simp at h
  | some r =>
    rw [hplain] at h
    simp only [Option.map_some', Option.some.injEq] at h
    have htr := dijkstra_full_tr_fst neighbor_fn end_state_fn acc_fn n
      (starts.map fun p => ⟨acc_init, p.1, p.2⟩) []
    obtain ⟨opt, H', V'⟩ := r
    cases opt with
    | none =>
      simp only [← h, true_iff]
      intro e he
      exact dijkstra_full_tr_none_no_end neighbor_fn end_state_fn acc_fn n
        _ [] H' V' (htr.trans hplain) e he
    | some asw =>
      obtain ⟨a2, s, w⟩ := asw
      simp only [← h, Option.some_ne_none, false_iff, not_forall]
      obtain ⟨acc, hmem, hacc, hend⟩ := dijkstra_full_tr_some_end neighbor_fn
        end_state_fn acc_fn n _ [] a2 s w H' V' (htr.trans hplain)
      refine ⟨(acc, s, w), hmem, ?_⟩
      simp only [hacc, hend]
      simp

/-- Claim C6 as stated is false on the code: on the graph 0 → 1 with
termination at state 1 and one extra seed entry for state 2, resuming the broken
DFS (respectively BFS) search on its returned residual frontier and visited set
with the extra seed appended exhausts the frontier and returns a `Continue`,
while the single uninterrupted call on the total seed set breaks at state 1 —
the two results differ (for DFS under either placement of the extra seed). -/
theorem claim_C6_counterexample :
    try_dfs_full c6_compute 10 [(0, 0)] [] = some (.brk (0, 1, [], [0])) ∧
    try_dfs_full c6_compute 10 [(0, 2)] [0] = some (.cont [2, 0]) ∧
    try_dfs_full c6_compute 10 [(0, 2), (0, 0)] [] =
      some (.brk (0, 1, [], [0, 2])) ∧
    try_dfs_full c6_compute 10 [(0, 0), (0, 2)] [] =
      some (.brk (0, 1, [(0, 2)], [0])) ∧
    try_bfs_full c6_compute 10 [(0, 0)] [] = some (.brk (0, 1, [], [0])) ∧
    try_bfs_full c6_compute 10 [(0, 2)] [0] = some (.cont [2, 0]) ∧
    try_bfs_full c6_compute 10 [(0, 0), (0, 2)] [] =
      some (.brk (0, 1, [], [2, 0])) ∧
    try_dfs_full c6_compute 10 [(0, 2)] [0] ≠
      try_dfs_full c6_compute 10 [(0, 2), (0, 0)] [] ∧
    try_dfs_full c6_compute 10 [(0, 2)] [0] ≠
      try_dfs_full c6_compute 10 [(0, 0), (0, 2)] [] ∧
    try_bfs_full c6_compute 10 [(0, 2)] [0] ≠
      try_bfs_full c6_compute 10 [(0, 0), (0, 2)] [] := by
  have h1 : try_dfs_full c6_compute 10 [(0, 0)] [] =
      some (.brk (0, 1, [], [0])) := rfl
  have h2 : try_dfs_full c6_compute 10 [(0, 2)] [0] = some (.cont [2, 0]) := rfl
  have h3 : try_dfs_full c6_compute 10 [(0, 2), (0, 0)] [] =
      some (.brk (0, 1, [], [0, 2])) := rfl
  have h4 : try_dfs_full c6_compute 10 [(0, 0), (0, 2)] [] =
      some (.brk (0, 1, [(0, 2)], [0])) := rfl
  have h5 : try_bfs_full c6_compute 10 [(0, 0)] [] =
      some (.brk (0, 1, [], [0])) := rfl
  have h6 : try_bfs_full c6_compute 10 [(0, 2)] [0] = some (.cont [2, 0]) := rfl
  have h7 : try_bfs_full c6_compute 10 [(0, 0), (0, 2)] [] =
      some (.brk (0, 1, [], [2, 0])) := rfl
  refine ⟨h1, h2, h3, h4, h5, h6, h7, ?_, ?_, ?_⟩
  · rw [h2, h3]; intro hc; exact CFlow.noConfusion (Option.some.inj hc)
  · rw [h2, h4]; intro hc; exact CFlow.noConfusion (Option.some.inj hc)
  · rw [h6, h7]; intro hc; exact CFlow.noConfusion (Option.some.inj hc)

/-- Claim C6 amended: for the stack engine `try_dfs_full`, extra seed entries
placed beneath the initial stack commute with the search — if the original
search breaks, the search on the extended stack breaks with the same value,
state and visited set and with the extra entries still beneath the residual
stack (so resuming from the returned residual plus extras continues that very
single call); if the original search exhausts its frontier, the extended search
continues as a search on the extra entries seeded with the returned visited
set.  (No such correspondence holds for the queue engine `try_bfs_full`.) -/
theorem claim_C6 {A S R : Type} [DecidableEq S]
    (f : A → S → CFlow R (List (A × S))) (n : Nat) (F X : List (A × S))
    (V : List S) :
    (∀ b s F' V', try_dfs_full f n F V = some (.brk (b, s, F', V')) →
      try_dfs_full f n (F ++ X) V = some (.brk (b, s, F' ++ X, V'))) ∧
    (∀ V', try_dfs_full f n F V = some (.cont V') →
      ∀ m r, try_dfs_full f m X V' = some r →
        try_dfs_full f (n + m) (F ++ X) V = some r) :=
  try_dfs_full_append f n F X V

/-- Witness for the amended claim C6 on the concrete 0 → 1 graph, with the
extra seed entry (state 2 in the break case, state 9 in the exhaustion case)
beneath the stack. -/
theorem claim_C6_witness :
    try_dfs_full c6_compute 10 ([(0, 0)] ++ [(0, 9)]) [] =
        some (.brk (0, 1, [] ++ [(0, 9)], [0])) ∧
      try_dfs_full c6_compute (3 + 3) ([(0, 2)] ++ [(0, 9)]) [] =
        some (.cont [9, 2]) :=
  ⟨(claim_C6 c6_compute 10 [(0, 0)] [(0, 9)] []).1 0 1 [] [0] rfl,
    (claim_C6 c6_compute 3 [(0, 2)] [(0, 9)] []).2 [2] rfl 3 (.cont [9, 2]) rfl⟩

/-- Claim C10: in all three engines, an early termination arises by popping the
terminal entry, the terminal state is not inserted into the visited set, none of
its neighbors are pushed, and the returned residual frontier and visited set are
exactly those in effect immediately after popping the terminal entry —
re-running from the pre-pop configuration reproduces the return verbatim. -/
theorem claim_C10 {A S R W : Type} [DecidableEq S] [LinearOrder W]
    (f : A → S → CFlow R (List (A × S)))
    (neighbor_fn : S → W → List (S × W)) (end_state_fn : A → S → W → Bool)
    (acc_fn : A → S → W → A) (n : Nat) (F : List (A × S))
    (H : List (StateWithWeight A S W)) (V : List S) :
    (∀ b s F' V', try_dfs_full f n F V = some (.brk (b, s, F', V')) →
      ∃ a m, 0 < m ∧ m ≤ n ∧ s ∉ V' ∧ f a s = .brk b ∧
        try_dfs_full f m ((a, s) :: F') V' = some (.brk (b, s, F', V'))) ∧
    (∀ b s F' V', try_bfs_full f n F V = some (.brk (b, s, F', V')) →
      ∃ a m, 0 < m ∧ m ≤ n ∧ s ∉ V' ∧ f a s = .brk b ∧
        try_bfs_full f m ((a, s) :: F') V' = some (.brk (b, s, F', V'))) ∧
    (∀ a2 s w H' V',
      dijkstra_full neighbor_fn end_state_fn acc_fn n H V =
          some (some (a2, s, w), H', V') →
      ∃ acc m, 0 < m ∧ m ≤ n ∧ s ∉ V' ∧ acc_fn acc s w = a2 ∧
        end_state_fn a2 s w = true ∧
        dijkstra_full neighbor_fn end_state_fn acc_fn m
          (⟨acc, s, w⟩ :: H') V' = some (some (a2, s, w), H', V')) :=
  ⟨try_dfs_full_brk_config f n F V,
    try_bfs_full_brk_config f n F V,
    dijkstra_full_brk_config neighbor_fn end_state_fn acc_fn n H V⟩

/-- Witness for claim C10 at the concrete break runs of the three engines. -/
theorem claim_C10_witness :
    (∃ a m, 0 < m ∧ m ≤ 10 ∧ (1 : Nat) ∉ [0] ∧ c6_compute a 1 = .brk 0 ∧
      try_dfs_full c6_compute m ((a, 1) :: []) [0] =
        some (.brk (0, 1, [], [0]))) ∧
    (∃ a m, 0 < m ∧ m ≤ 10 ∧ (1 : Nat) ∉ [0] ∧ c6_compute a 1 = .brk 0 ∧
      try_bfs_full c6_compute m ((a, 1) :: []) [0] =
        some (.brk (0, 1, [], [0]))) ∧
    (∃ acc m, 0 < m ∧ m ≤ 10 ∧ (2 : Nat) ∉ [1, 0] ∧ keep_wacc acc 2 2 = 0 ∧
      tri_end 0 2 2 = true ∧
      dijkstra_full tri_neighbor tri_end keep_wacc m
        (⟨acc, 2, 2⟩ :: [⟨0, 2, 5⟩]) [1, 0] =
        some (some (0, 2, 2), [⟨0, 2, 5⟩], [1, 0])) :=
  ⟨(claim_C10 c6_compute tri_neighbor tri_end keep_wacc 10 [(0, 0)]
        [⟨0, 0, 0⟩] []).1 0 1 [] [0] rfl,
    (claim_C10 c6_compute tri_neighbor tri_end keep_wacc 10 [(0, 0)]
        [⟨0, 0, 0⟩] []).2.1 0 1 [] [0] rfl,
    (claim_C10 c6_compute tri_neighbor tri_end keep_wacc 10 [(0, 0)]
        [⟨0, 0, 0⟩] []).2.2 0 2 2 [⟨0, 2, 5⟩] [1, 0] rfl⟩

/-- Claim C7: the four traversal entry points return `None` exactly when the
frontier empties without `end_state_fn` ever returning true at an invocation of
the caller-supplied functions; in particular Scenario D (a start with no
neighbors and a never-firing predicate) returns `None` in all engines, and a
completed run always returns a value (`some` in the fueled model). -/
theorem claim_C7 {A S W : Type} [DecidableEq S] [LinearOrder W]
    (neighbor_fn : S → List S) (end_state_fn : A → S → Bool) (acc_fn : A → S → A)
    (wnbr : S → W → List (S × W)) (wend : A → S → W → Bool)
    (waccf : A → S → W → A) (n : Nat) (start : S) (acc_init : A)
    (start_weight : W) (starts : List (S × W)) :
    (∀ res, dfs n start neighbor_fn end_state_fn acc_init acc_fn = some res →
      (res = none ↔
        ∀ e ∈ (try_dfs_full_tr (search_compute neighbor_fn end_state_fn acc_fn)
            n [(acc_init, start)] []).2.2,
          end_state_fn (acc_fn e.1 e.2) e.2 = false)) ∧
    (∀ res, bfs n start neighbor_fn end_state_fn acc_init acc_fn = some res →
      (res = none ↔
        ∀ e ∈ (try_bfs_full_tr (search_compute neighbor_fn end_state_fn acc_fn)
            n [(acc_init, start)] []).2.2,
          end_state_fn (acc_fn e.1 e.2) e.2 = false)) ∧
    (∀ res, dijkstra_starts_iter n starts wnbr wend acc_init waccf = some res →
      (res = none ↔
        ∀ e ∈ (dijkstra_full_tr wnbr wend waccf n
            (starts.map fun p => ⟨acc_init, p.1, p.2⟩) []).2.2,
          wend (waccf e.1 e.2.1 e.2.2) e.2.1 e.2.2 = false)) ∧
    (∀ res, dijkstra n start start_weight wnbr wend acc_init waccf = some res →
      (res = none ↔
        ∀ e ∈ (dijkstra_full_tr wnbr wend waccf n
            [⟨acc_init, start, start_weight⟩] []).2.2,
          wend (waccf e.1 e.2.1 e.2.2) e.2.1 e.2.2 = false)) ∧
    dfs 3 (0 : Nat) no_neighbor never_end (0 : Nat) keep_acc = some none ∧
    bfs 3 (0 : Nat) no_neighbor never_end (0 : Nat) keep_acc = some none ∧
    dijkstra 3 (0 : Nat) (0 : Nat) no_wneighbor never_wend (0 : Nat) keep_wacc =
      some none := by
  refine ⟨dfs_none_iff neighbor_fn end_state_fn acc_fn n start acc_init,
    bfs_none_iff neighbor_fn end_state_fn acc_fn n start acc_init,
    dijkstra_starts_iter_none_iff wnbr wend waccf n starts acc_init,
    fun res h => ?_, rfl, rfl, rfl⟩
  have hh := dijkstra_starts_iter_none_iff wnbr wend waccf n
    [(start, start_weight)] acc_init res h
  simpa using hh

/-- Witness for claim C7's conditional part at the Scenario D instance. -/
theorem claim_C7_witness :
    (none : Option (Nat × Nat)) = none ↔
      ∀ e ∈ (try_dfs_full_tr (search_compute no_neighbor never_end keep_acc)
          3 [((0 : Nat), (0 : Nat))] []).2.2,
        never_end (keep_acc e.1 e.2) e.2 = false :=
  (claim_C7 (W := Nat) no_neighbor never_end keep_acc no_wneighbor never_wend
      keep_wacc 3 0 0 0 []).1 none rfl
